import Mathlib

/-!
Verification development for the execution ledger and FIFO matching /
lifecycle-replay engine of the crypto-journal repository.

Quantities and prices are exact decimals in the source (`decimal.Decimal`);
they are embedded as `Rat`.  Timestamps (`timestamp` / `occurred_at` /
`created_at`, timezone-aware datetimes in the source) are embedded as `Nat`
(only their total order matters).  The SQL enums `exec_side` ('OPEN','CLOSE')
and `exec_direction` ('LONG','SHORT') are embedded as two-constructor
inductives.  Database tables are embedded as lists of records; a SQLAlchemy
session's visible state is a record of those lists.
-/

/-- SQL enum `exec_side` ('OPEN', 'CLOSE') from `app/models/executions.py`. -/
inductive Side where
  | OPEN : Side
  | CLOSE : Side
deriving DecidableEq, Repr

/-- SQL enum `exec_direction` ('LONG', 'SHORT') from `app/models/executions.py`. -/
inductive Direction where
  | LONG : Direction
  | SHORT : Direction
deriving DecidableEq, Repr

/-- One row of the `executions` table (`app/models/execution.py` /
`app/models/executions.py`).  `timestamp` doubles for the `occurred_at`
column of the `app/models/execution.py` iteration of the model: both hold
the fill time. -/
structure Execution where
  id : Nat
  source : String
  source_filename : String
  source_rowhash : Option String
  source_execution_id : Option String
  ticker : String
  direction : Direction
  side : Side
  quantity : Rat
  remaining_qty : Rat
  price : Option Rat
  fee : Rat
  timestamp : Nat
deriving DecidableEq, Repr

/-- One row of the `execution_matches` table
(`app/models/execution_match.py`).  `created_at` is the server-side insert
stamp used as the lifecycle ordering key. -/
structure ExecutionMatch where
  id : Nat
  open_execution_id : Nat
  close_execution_id : Nat
  matched_quantity : Rat
  created_at : Nat
deriving DecidableEq, Repr

/-- The ledger state visible to the matching engine: the `executions` and
`execution_matches` tables plus the autoincrement counters. `nextMatchId`
also serves as the logical insert clock for `created_at` stamps. -/
structure LedgerState where
  executions : List Execution
  execution_matches : List ExecutionMatch
  nextExecId : Nat
  nextMatchId : Nat
deriving DecidableEq, Repr

/-- `SELECT ... WHERE id = eid` on the executions table. -/
def lookupExec (s : LedgerState) (eid : Nat) : Option Execution :=
  s.executions.find? (fun e => decide (e.id = eid))

/-- `SELECT coalesce(sum(matched_quantity), 0) WHERE close_execution_id = cid`
(`app/services/execution_matching.py` lines 8-11). -/
def sumMatchedForClose (ms : List ExecutionMatch) (cid : Nat) : Rat :=
  ((ms.filter (fun m => decide (m.close_execution_id = cid))).map
    (fun m => m.matched_quantity)).sum

/-- Sum of `matched_quantity` over matches whose `open_execution_id` is `oid`. -/
def sumMatchedForOpen (ms : List ExecutionMatch) (oid : Nat) : Rat :=
  ((ms.filter (fun m => decide (m.open_execution_id = oid))).map
    (fun m => m.matched_quantity)).sum

/-- Sum of `matched_quantity` over all matches touching execution `eid`
(referencing it on either side), as in the spec's conservation property. -/
def sumTouching (ms : List ExecutionMatch) (eid : Nat) : Rat :=
  ((ms.filter (fun m =>
      decide (m.open_execution_id = eid ∨ m.close_execution_id = eid))).map
    (fun m => m.matched_quantity)).sum

/-- `ORDER BY timestamp ASC, id ASC`
(`app/services/execution_matching.py` line 33). -/
def tsIdLe (a b : Execution) : Prop :=
  a.timestamp < b.timestamp ∨ (a.timestamp = b.timestamp ∧ a.id ≤ b.id)

instance : DecidableRel tsIdLe := fun a b => by
  unfold tsIdLe; infer_instance

instance : IsTotal Execution tsIdLe where
  total a b := by
    unfold tsIdLe
    rcases Nat.lt_trichotomy a.timestamp b.timestamp with h | h | h
    · exact Or.inl (Or.inl h)
    · rcases Nat.le_total a.id b.id with h2 | h2
      · exact Or.inl (Or.inr ⟨h, h2⟩)
      · exact Or.inr (Or.inr ⟨h.symm, h2⟩)
    · exact Or.inr (Or.inl h)

instance : IsTrans Execution tsIdLe where
  trans a b c hab hbc := by
    unfold tsIdLe at *
    rcases hab with h1 | ⟨h1, h1'⟩
    · rcases hbc with h2 | ⟨h2, _⟩
      · exact Or.inl (h1.trans h2)
      · exact Or.inl (h2 ▸ h1)
    · rcases hbc with h2 | ⟨h2, h2'⟩
      · exact Or.inl (h1 ▸ h2)
      · exact Or.inr ⟨h1.trans h2, h1'.trans h2'⟩

/-- Candidate predicate of the FIFO query in
`app/services/execution_matching.py` lines 25-34: same ticker, side OPEN,
same direction, positive remaining quantity. -/
def candidateFilter (close : Execution) (e : Execution) : Bool :=
  decide (e.ticker = close.ticker ∧ e.side = Side.OPEN ∧
    e.direction = close.direction ∧ 0 < e.remaining_qty)

/-- The pure-python FIFO walk of `app/services/execution_matching.py`
lines 39-50: walk the ordered candidates, skip non-positive remainders,
take `min(open_remaining, remaining)` from each until the close remainder
is exhausted.  Returns the planned `(open, qty)` list together with the
final close remainder. -/
def fifoWalk : List Execution → Rat → List (Execution × Rat) × Rat
  | [], r => ([], r)
  | o :: rest, r =>
    if r ≤ 0 then ([], r)
    else if o.remaining_qty ≤ 0 then fifoWalk rest r
    else
      let q := min o.remaining_qty r
      let res := fifoWalk rest (r - q)
      ((o, q) :: res.1, res.2)

/-- Total quantity the planned pairs take from execution `eid`. -/
def debit (pairs : List (Execution × Rat)) (eid : Nat) : Rat :=
  ((pairs.filter (fun p => decide (p.1.id = eid))).map (fun p => p.2)).sum

/-- The sequential `open_exec.remaining_qty -= match_qty` writes of
`app/services/execution_matching.py` lines 53-64, one per planned pair. -/
def decrementOpens (pairs : List (Execution × Rat)) (execs : List Execution) :
    List Execution :=
  pairs.foldl
    (fun acc p =>
      acc.map (fun e =>
        if e.id = p.1.id then
          { e with remaining_qty := e.remaining_qty - p.2 }
        else e))
    execs

/-- The `session.add(ExecutionMatch(...))` inserts of
`app/services/execution_matching.py` lines 54-60, with autoincrement ids
and insert-order `created_at` stamps. -/
def mkMatches (closeId : Nat) : Nat → List (Execution × Rat) → List ExecutionMatch
  | _, [] => []
  | nid, p :: ps =>
    { id := nid, open_execution_id := p.1.id, close_execution_id := closeId,
      matched_quantity := p.2, created_at := nid } :: mkMatches closeId (nid + 1) ps

/-- Apply the mutation phase of `match_close_execution` (lines 52-67):
insert the planned matches, decrement each matched OPEN, and store the
final remainder on the close row. -/
def applyPairs (s : LedgerState) (closeId : Nat) (pairs : List (Execution × Rat))
    (rfin : Rat) : LedgerState :=
  { executions :=
      (decrementOpens pairs s.executions).map (fun e =>
        if e.id = closeId then { e with remaining_qty := rfin } else e),
    execution_matches := s.execution_matches ++ mkMatches closeId s.nextMatchId pairs,
    nextExecId := s.nextExecId,
    nextMatchId := s.nextMatchId + pairs.length }

/-- `match_close_execution` from `app/services/execution_matching.py`.
The source writes the reconciled remainder only when it differs from the
stored value (lines 15-17); the unconditional write here stores the same
value in that case, so the resulting state is identical. -/
def match_close_execution (s : LedgerState) (closeId : Nat) : LedgerState :=
  match lookupExec s closeId with
  | none => s
  | some close =>
    let already := sumMatchedForClose s.execution_matches closeId
    let expected := close.quantity - already
    let execs1 := s.executions.map (fun e =>
      if e.id = closeId then { e with remaining_qty := expected } else e)
    let s1 : LedgerState := { s with executions := execs1 }
    if expected ≤ 0 then s1
    else
      let candidates := List.insertionSort tsIdLe (execs1.filter (candidateFilter close))
      let walked := fifoWalk candidates expected
      applyPairs s1 closeId walked.1 walked.2

/-- The matches appended to the table by one `match_close_execution` call. -/
def newMatchesOf (s : LedgerState) (closeId : Nat) : List ExecutionMatch :=
  (match_close_execution s closeId).execution_matches.drop s.execution_matches.length

/-- Normalized execution tuple handed to the ingestion gate
(`execution_payload` of `insert_execution_and_match` in
`app/services/matcher.py`). -/
structure IngestPayload where
  source : String
  source_filename : String
  source_rowhash : Option String
  source_execution_id : Option String
  ticker : String
  direction : Direction
  side : Side
  quantity : Rat
  price : Option Rat
  fee : Rat
  occurred_at : Nat
deriving DecidableEq, Repr

/-- The fresh `Execution` row built by `insert_execution_and_match`
(`app/services/matcher.py` lines 40-54): `remaining_qty = quantity`. -/
def execOfPayload (p : IngestPayload) (eid : Nat) : Execution :=
  { id := eid, source := p.source, source_filename := p.source_filename,
    source_rowhash := p.source_rowhash,
    source_execution_id := p.source_execution_id, ticker := p.ticker,
    direction := p.direction, side := p.side, quantity := p.quantity,
    remaining_qty := p.quantity, price := p.price, fee := p.fee,
    timestamp := p.occurred_at }

/-- The rowhash dedupe predicate of `app/services/matcher.py` lines 19-26:
same `source`, `source_filename` and `source_rowhash`. -/
def rowhashKeyMatch (p : IngestPayload) (e : Execution) : Bool :=
  decide (e.source = p.source ∧ e.source_filename = p.source_filename ∧
    e.source_rowhash = p.source_rowhash)

/-- The `source_execution_id` dedupe predicate of `app/services/matcher.py`
lines 30-38: same `source` and `source_execution_id`. -/
def sourceExecIdKeyMatch (p : IngestPayload) (e : Execution) : Bool :=
  decide (e.source = p.source ∧ e.source_execution_id = p.source_execution_id)

/-- The insertion phase of the ingestion/dedup gate
(`insert_execution_and_match`, `app/services/matcher.py` lines 18-56):
dedupe by rowhash (or by source execution id when no rowhash is given),
otherwise insert one new row with `remaining_qty = quantity`.  Returns the
state and the created/loaded id. -/
def applyIngest (s : LedgerState) (p : IngestPayload) : LedgerState × Nat :=
  match p.source_rowhash with
  | some _ =>
    match s.executions.find? (rowhashKeyMatch p) with
    | some existing => (s, existing.id)
    | none =>
      ({ s with
          executions := s.executions ++ [execOfPayload p s.nextExecId],
          nextExecId := s.nextExecId + 1 }, s.nextExecId)
  | none =>
    match p.source_execution_id with
    | some _ =>
      match s.executions.find? (sourceExecIdKeyMatch p) with
      | some existing => (s, existing.id)
      | none =>
        ({ s with
            executions := s.executions ++ [execOfPayload p s.nextExecId],
            nextExecId := s.nextExecId + 1 }, s.nextExecId)
    | none =>
      ({ s with
          executions := s.executions ++ [execOfPayload p s.nextExecId],
          nextExecId := s.nextExecId + 1 }, s.nextExecId)

/-- One unit of work against the ledger: an ingestion
(`insert_execution_and_match` without its matching step) or one
ingestion-triggered matching pass (`match_close_execution`, invoked by its
callers only on CLOSE executions — `app/services/matcher.py` line 59). -/
inductive LedgerOp where
  | ingest : IngestPayload → LedgerOp
  | matchClose : Nat → LedgerOp

/-- Apply one operation.  The `side == 'CLOSE'` guard mirrors the caller
contract of the matching engine. -/
def applyOp (s : LedgerState) : LedgerOp → LedgerState
  | .ingest p => (applyIngest s p).1
  | .matchClose cid =>
    match lookupExec s cid with
    | some c => if c.side = Side.CLOSE then match_close_execution s cid else s
    | none => s

/-- Apply a sequence of operations, oldest first. -/
def applyOps (s : LedgerState) : List LedgerOp → LedgerState
  | [] => s
  | op :: ops => applyOps (applyOp s op) ops

/-- A ledger with empty tables. -/
def initLedger : LedgerState :=
  { executions := [], execution_matches := [], nextExecId := 1, nextMatchId := 1 }

/-- One row of the legacy `execution_matches` model iteration
(`app/models/execution.py`): column `matched_qty`, plus a `price`. -/
structure MatcherMatch where
  open_execution_id : Nat
  close_execution_id : Nat
  matched_qty : Rat
  price : Option Rat
deriving DecidableEq, Repr

/-- Session state for the legacy matcher of `app/services/matcher.py`. -/
structure MatcherState where
  executions : List Execution
  execution_matches : List MatcherMatch
  nextExecId : Nat
deriving DecidableEq, Repr

/-- Python's `close_exec.price or candidate.price` (`app/services/matcher.py`
line 103): `None` and `Decimal('0')` are both falsy. -/
def pyOrPrice (a b : Option Rat) : Option Rat :=
  match a with
  | some v => if v = 0 then b else some v
  | none => b

/-- Candidate predicate of the legacy matcher's query
(`app/services/matcher.py` lines 79-83): same ticker, side OPEN, positive
remaining quantity — the query has NO direction filter. -/
def legacyCandidateFilter (close : Execution) (e : Execution) : Bool :=
  decide (e.ticker = close.ticker ∧ e.side = Side.OPEN ∧ 0 < e.remaining_qty)

/-- The `while remaining_to_match > 0` loop of `_match_close_execution`
(`app/services/matcher.py` lines 77-127).  Each iteration re-selects the
first candidate `ORDER BY occurred_at ASC, id ASC`, emits a match of
`min(candidate.remaining_qty, remaining_to_match)` and writes both new
remainders.  The loop runs at most once per candidate plus one final
exhausted check, so `executions.length + 1` fuel is enough; results for
claims are evaluated with that fuel. -/
def matcherLoop (close : Execution) :
    Nat → List Execution → List MatcherMatch → Rat →
      List Execution × List MatcherMatch × Rat
  | 0, execs, ms, r => (execs, ms, r)
  | fuel + 1, execs, ms, r =>
    if r ≤ 0 then (execs, ms, r)
    else
      match (List.insertionSort tsIdLe
          (execs.filter (legacyCandidateFilter close))).head? with
      | none => (execs, ms, r)
      | some cand =>
        let match_qty := min cand.remaining_qty r
        let ms' := ms ++ [{ open_execution_id := cand.id,
                            close_execution_id := close.id,
                            matched_qty := match_qty,
                            price := pyOrPrice close.price cand.price }]
        let execs' :=
          (execs.map (fun e =>
            if e.id = cand.id then
              { e with remaining_qty := cand.remaining_qty - match_qty }
            else e)).map (fun e =>
              if e.id = close.id then
                { e with remaining_qty := r - match_qty }
              else e)
        matcherLoop close fuel execs' ms' (r - match_qty)

/-- `_match_close_execution` from `app/services/matcher.py`: FIFO-match a
close against open executions of the same ticker (any direction). -/
def matcher_match_close_execution (s : MatcherState) (close : Execution) :
    MatcherState :=
  let res := matcherLoop close (s.executions.length + 1) s.executions
    s.execution_matches close.remaining_qty
  { s with executions := res.1, execution_matches := res.2.1 }

/-- `insert_execution_and_match` from `app/services/matcher.py`: the
idempotent ingestion gate followed by legacy FIFO matching when the new
row is a CLOSE.  Returns the state and the created/loaded execution id. -/
def insert_execution_and_match (s : MatcherState) (p : IngestPayload) :
    MatcherState × Nat :=
  match p.source_rowhash with
  | some _ =>
    match s.executions.find? (rowhashKeyMatch p) with
    | some existing => (s, existing.id)
    | none => insertAndMatchFresh s p
  | none =>
    match p.source_execution_id with
    | some _ =>
      match s.executions.find? (sourceExecIdKeyMatch p) with
      | some existing => (s, existing.id)
      | none => insertAndMatchFresh s p
    | none => insertAndMatchFresh s p
where
  /-- Lines 40-64: insert the fresh row, then match when it is a CLOSE. -/
  insertAndMatchFresh (s : MatcherState) (p : IngestPayload) :
      MatcherState × Nat :=
    let row := execOfPayload p s.nextExecId
    let s1 : MatcherState := { s with
      executions := s.executions ++ [row], nextExecId := s.nextExecId + 1 }
    if row.side = Side.CLOSE then
      (matcher_match_close_execution s1 row, row.id)
    else (s1, row.id)

/-- The columns of an execution row that `rebuild_execution_matches`
(`app/services/execution_matcher_persist.py`) reads: sort/group keys,
side, original quantity and id.  The rebuild never reads or writes
`remaining_qty` — it tracks consumption in the local `open_queue` only. -/
structure RebuildRow where
  id : Nat
  ticker : String
  direction : Direction
  side : Side
  quantity : Rat
  timestamp : Nat
deriving DecidableEq, Repr

/-- Project an execution row to the columns the rebuild reads. -/
def rebuildView (e : Execution) : RebuildRow :=
  { id := e.id, ticker := e.ticker, direction := e.direction,
    side := e.side, quantity := e.quantity, timestamp := e.timestamp }

/-- A match as produced by the rebuild before the database assigns id and
`created_at` (`execution_matcher_persist.py` lines 72-78). -/
structure RebuildMatch where
  open_execution_id : Nat
  close_execution_id : Nat
  matched_quantity : Rat
deriving DecidableEq, Repr

/-- Rank of a direction in the `exec_direction` enum declaration, which is
the order Postgres sorts enum columns by. -/
def dirRank : Direction → Nat
  | Direction.LONG => 0
  | Direction.SHORT => 1

/-- `ORDER BY ticker, direction, timestamp, id`
(`execution_matcher_persist.py` lines 27-34). -/
def rebuildLe (a b : RebuildRow) : Prop :=
  a.ticker < b.ticker ∨ (a.ticker = b.ticker ∧
    (dirRank a.direction < dirRank b.direction ∨ (a.direction = b.direction ∧
      (a.timestamp < b.timestamp ∨ (a.timestamp = b.timestamp ∧ a.id ≤ b.id)))))

instance : DecidableRel rebuildLe := fun a b => by
  unfold rebuildLe; infer_instance

/-- The `while remaining_qty > 0 and open_queue:` loop of the rebuild
(`execution_matcher_persist.py` lines 60-86): consume the queue head,
guard against dust, pop fully consumed opens.  One iteration either pops
the head or zeroes `remaining_qty`, so `queue.length + 1` fuel is enough;
results for claims are evaluated with that fuel. -/
def rebuildLoop (closeId : Nat) :
    Nat → List (Nat × Rat) → Rat → List RebuildMatch →
      List (Nat × Rat) × List RebuildMatch
  | 0, queue, _, acc => (queue, acc)
  | fuel + 1, queue, remaining_qty, acc =>
    if remaining_qty ≤ 0 then (queue, acc)
    else
      match queue with
      | [] => ([], acc)
      | (oid, orem) :: rest =>
        let matched_qty := min orem remaining_qty
        if matched_qty ≤ 0 then (oid, orem) :: rest |> fun q => (q, acc)
        else
          let queue' :=
            if orem - matched_qty = 0 then rest
            else (oid, orem - matched_qty) :: rest
          rebuildLoop closeId fuel queue' (remaining_qty - matched_qty)
            (acc ++ [{ open_execution_id := oid, close_execution_id := closeId,
                       matched_quantity := matched_qty }])

/-- FIFO matching of one `(ticker, direction)` group
(`execution_matcher_persist.py` lines 45-86): OPENs enter the queue with
their full `quantity` as the locally tracked remainder; each CLOSE
consumes the queue front-first. -/
def processGroup (group : List RebuildRow) :
    List (Nat × Rat) × List RebuildMatch :=
  group.foldl
    (fun st e =>
      match e.side with
      | Side.OPEN => (st.1 ++ [(e.id, e.quantity)], st.2)
      | Side.CLOSE =>
        let res := rebuildLoop e.id (st.1.length + 1) st.1 e.quantity []
        (res.1, st.2 ++ res.2))
    ([], [])

/-- `(ticker, direction)` keys in order of first appearance, as a Python
`defaultdict` iterates them (`execution_matcher_persist.py` lines 37-40). -/
def groupKeys (l : List RebuildRow) : List (String × Direction) :=
  l.foldl
    (fun acc e =>
      if (e.ticker, e.direction) ∈ acc then acc
      else acc ++ [(e.ticker, e.direction)])
    []

/-- The deterministic FIFO rebuild over the read columns: load in stable
order, group by `(ticker, direction)`, match each group. -/
def rebuildCore (rows : List RebuildRow) : List RebuildMatch :=
  let sorted := List.insertionSort rebuildLe rows
  (groupKeys sorted).flatMap (fun k =>
    (processGroup (sorted.filter (fun e =>
      decide ((e.ticker, e.direction) = k)))).2)

/-- Give the rebuilt matches their database-assigned ids and insert-order
`created_at` stamps. -/
def stampMatches (closeList : List RebuildMatch) (start : Nat) :
    List ExecutionMatch :=
  match closeList with
  | [] => []
  | m :: ms =>
    { id := start, open_execution_id := m.open_execution_id,
      close_execution_id := m.close_execution_id,
      matched_quantity := m.matched_quantity,
      created_at := start } :: stampMatches ms (start + 1)

/-- `rebuild_execution_matches` from
`app/services/execution_matcher_persist.py`: truncate `execution_matches`,
recompute the whole match set from the executions alone, insert it, and
return the match count.  Executions are read, never written. -/
def rebuild_execution_matches (s : LedgerState) : LedgerState × Nat :=
  let new := rebuildCore (s.executions.map rebuildView)
  ({ executions := s.executions,
     execution_matches := stampMatches new s.nextMatchId,
     nextExecId := s.nextExecId,
     nextMatchId := s.nextMatchId + new.length }, new.length)

/-- The columns of a `trades` row (`app/models/trade.py`) that
`rebuild_trade_lifecycle_events` reads or writes. -/
structure TradeRow where
  id : Nat
  original_quantity : Rat
  exit_price : Option Rat
  end_date : Option Nat
  created_at : Nat
deriving DecidableEq, Repr

/-- One row of the `trade_lifecycle_events` table
(`app/models/trade_lifecycle_event.py`). -/
structure TradeLifecycleEvent where
  trade_id : Nat
  event_type : String
  created_at : Nat
deriving DecidableEq, Repr

/-- `ORDER BY created_at` for execution matches
(`trade_lifecycle_materializer.py` line 58). -/
def caLe (a b : ExecutionMatch) : Prop := a.created_at ≤ b.created_at

instance : DecidableRel caLe := fun a b => by
  unfold caLe; infer_instance

instance : IsTotal ExecutionMatch caLe where
  total a b := Nat.le_total a.created_at b.created_at

instance : IsTrans ExecutionMatch caLe where
  trans _ _ _ hab hbc := Nat.le_trans hab hbc

/-- `ORDER BY id` for trades (`trade_lifecycle_materializer.py` line 38). -/
def tradeIdLe (a b : TradeRow) : Prop := a.id ≤ b.id

instance : DecidableRel tradeIdLe := fun a b => by
  unfold tradeIdLe; infer_instance

/-- The per-trade match walk of `rebuild_trade_lifecycle_events`
(`app/services/trade_lifecycle_materializer.py` lines 83-117): skip
non-positive quantities, clamp the running remainder at zero, emit
`partial_close` on a reduction that stays positive, emit `closed` once at
the first reduction to zero (persisting `end_date` when unset). -/
def lcFold : List ExecutionMatch → TradeRow → Rat → Bool →
    List TradeLifecycleEvent × TradeRow
  | [], t, _, _ => ([], t)
  | m :: ms, t, remaining, ever_closed =>
    if m.matched_quantity ≤ 0 then lcFold ms t remaining ever_closed
    else
      let before := remaining
      let dropped := remaining - m.matched_quantity
      let remaining' := if dropped < 0 then 0 else dropped
      if before > remaining' ∧ remaining' > 0 then
        let res := lcFold ms t remaining' ever_closed
        ({ trade_id := t.id, event_type := "partial_close",
           created_at := m.created_at } :: res.1, res.2)
      else if before > 0 ∧ remaining' = 0 ∧ ever_closed = false then
        let t' := if t.end_date = none then
          { t with end_date := some m.created_at } else t
        let res := lcFold ms t' remaining' true
        ({ trade_id := t.id, event_type := "closed",
           created_at := m.created_at } :: res.1, res.2)
      else
        lcFold ms t remaining' ever_closed

/-- Lifecycle rows for one trade (`trade_lifecycle_materializer.py` lines
43-117): `opened` always comes first; a trade with no matches falls back
to its summary `exit_price`; otherwise the match walk runs.  Returns the
rows together with the possibly updated trade. -/
def trade_lifecycle_rows (t : TradeRow) (ms : List ExecutionMatch) :
    List TradeLifecycleEvent × TradeRow :=
  let opened : TradeLifecycleEvent :=
    { trade_id := t.id, event_type := "opened", created_at := t.created_at }
  let tms := List.insertionSort caLe
    (ms.filter (fun m => decide (m.open_execution_id = t.id)))
  match tms with
  | [] =>
    match t.exit_price with
    | some _ =>
      ([opened, { trade_id := t.id, event_type := "closed",
                  created_at := t.created_at }],
        if t.end_date = none then { t with end_date := some t.created_at } else t)
    | none => ([opened], t)
  | _ :: _ =>
    let res := lcFold tms t t.original_quantity false
    (opened :: res.1, res.2)

/-- `rebuild_trade_lifecycle_events` from
`app/services/trade_lifecycle_materializer.py`: truncate the derived
table, walk the trades in id order, and return (rows, updated trades); the
source returns `len(lifecycle_rows)`, recovered here as the length of the
first component. -/
def rebuild_trade_lifecycle_events (trades : List TradeRow)
    (ms : List ExecutionMatch) : List TradeLifecycleEvent × List TradeRow :=
  (List.insertionSort tradeIdLe trades).foldl
    (fun acc t =>
      let res := trade_lifecycle_rows t ms
      (acc.1 ++ res.1, acc.2 ++ [res.2]))
    ([], [])

/-- The event types the rebuild emits for trade `tid`, in creation order. -/
def eventsForTrade (trades : List TradeRow) (ms : List ExecutionMatch)
    (tid : Nat) : List String :=
  ((rebuild_trade_lifecycle_events trades ms).1.filter
    (fun ev => decide (ev.trade_id = tid))).map (fun ev => ev.event_type)

/-- The execution-like rows `build_position_snapshot` consumes
(`app/services/position_builder.py` docstring: "trades are executions").
`entry_price` is non-null in the schema; `exit_price` is nullable. -/
structure PBTrade where
  account_id : Nat
  ticker : String
  direction : Direction
  quantity : Rat
  entry_price : Rat
  exit_price : Option Rat
  is_open : Bool
  entry_date : Nat
  end_date : Option Nat
deriving DecidableEq, Repr

/-- The `PositionSnapshot` dataclass of `app/services/position_builder.py`. -/
structure PositionSnapshot where
  account_id : Nat
  symbol : String
  side : Direction
  opened_qty : Rat
  closed_qty : Rat
  remaining_qty : Rat
  avg_entry_price : Option Rat
  realized_pnl : Rat
  unrealized_pnl : Option Rat
  opened_at : Nat
  closed_at : Option Nat
deriving DecidableEq, Repr

/-- The running accumulator of the `build_position_snapshot` loop. -/
structure PBAcc where
  opened_qty : Rat
  closed_qty : Rat
  cost_basis : Rat
  realized_pnl : Rat
  closed_at : Option Nat
deriving DecidableEq, Repr

/-- `ORDER BY entry_date` (`position_builder.py` line 37, Python `sorted`
with key `entry_date`; Python's sort is stable, as is insertion sort). -/
def entryDateLe (a b : PBTrade) : Prop := a.entry_date ≤ b.entry_date

instance : DecidableRel entryDateLe := fun a b => by
  unfold entryDateLe; infer_instance

/-- One iteration of the accumulation loop (`position_builder.py` lines
55-81).  `Decimal(str(t.exit_price))` raises `InvalidOperation` when
`exit_price` is None, which is the only failure inside the loop; it is
reached only when the close consumes positive inventory. -/
def pbStep (acc : PBAcc) (t : PBTrade) : Except String PBAcc :=
  if t.is_open then
    Except.ok { acc with
      opened_qty := acc.opened_qty + t.quantity,
      cost_basis := acc.cost_basis + t.quantity * t.entry_price }
  else
    let remaining_before := acc.opened_qty - acc.closed_qty
    let close_qty := min t.quantity remaining_before
    if close_qty ≤ 0 then Except.ok acc
    else
      match t.exit_price with
      | none => Except.error "InvalidOperation"
      | some xp =>
        let avg_entry :=
          if 0 < acc.opened_qty then acc.cost_basis / acc.opened_qty else 0
        let pnl := close_qty * (xp - avg_entry)
        let closed' := acc.closed_qty + close_qty
        Except.ok { acc with
          closed_qty := closed',
          realized_pnl := acc.realized_pnl + pnl,
          closed_at := if closed' = acc.opened_qty then t.end_date
            else acc.closed_at }

/-- `build_position_snapshot` from `app/services/position_builder.py`:
sort by entry date, raise `ValueError("No trades provided")` on an empty
collection, accumulate, and assemble the snapshot.  The function performs
no writes; exceptions are modelled as `Except.error`. -/
def build_position_snapshot (trades : List PBTrade)
    (current_price : Option Rat) : Except String PositionSnapshot :=
  let sorted := List.insertionSort entryDateLe trades
  match sorted with
  | [] => Except.error "No trades provided"
  | t0 :: _ => do
    let acc ← sorted.foldlM pbStep
      { opened_qty := 0, closed_qty := 0, cost_basis := 0,
        realized_pnl := 0, closed_at := none }
    let remaining_qty := acc.opened_qty - acc.closed_qty
    let avg_entry_price :=
      if 0 < acc.opened_qty then some (acc.cost_basis / acc.opened_qty)
      else none
    let unrealized_pnl :=
      match current_price, avg_entry_price with
      | some cp, some avg =>
        if 0 < remaining_qty then some (remaining_qty * (cp - avg)) else none
      | _, _ => none
    Except.ok
      { account_id := t0.account_id, symbol := t0.ticker,
        side := t0.direction, opened_qty := acc.opened_qty,
        closed_qty := acc.closed_qty, remaining_qty := remaining_qty,
        avg_entry_price := avg_entry_price,
        realized_pnl := acc.realized_pnl, unrealized_pnl := unrealized_pnl,
        opened_at := t0.entry_date, closed_at := acc.closed_at }

/-- Spec-side candidate predicate, taken from the words of the spec and of
claims C1/C5: "candidate OPEN executions of the same (ticker, direction)
with remaining_qty > 0". -/
def specCandidateFilter (close : Execution) (e : Execution) : Bool :=
  decide (e.side = Side.OPEN ∧ e.ticker = close.ticker ∧
    e.direction = close.direction ∧ 0 < e.remaining_qty)

/-- Spec-side candidate list: the candidates "ordered by (timestamp
ascending, id ascending)". -/
def specCandidates (s : LedgerState) (close : Execution) : List Execution :=
  List.insertionSort tsIdLe (s.executions.filter (specCandidateFilter close))

/-- Spec-side consumption walk, taken from the words of claim C1: consume
the ordered candidates, "taking min(candidate.remaining_qty,
close.remaining_qty) from each until the close is consumed or candidates
are exhausted". -/
def specFifoConsume : List Execution → Rat → List (Nat × Rat)
  | [], _ => []
  | o :: rest, r =>
    if r ≤ 0 then []
    else
      let q := min o.remaining_qty r
      (o.id, q) :: specFifoConsume rest (r - q)

/-- The executions table has pairwise distinct primary keys. -/
def UniqueIds (s : LedgerState) : Prop :=
  (s.executions.map (fun e => e.id)).Nodup

/-- Every primary key is below the autoincrement counter. -/
def IdsBounded (s : LedgerState) : Prop :=
  ∀ e ∈ s.executions, e.id < s.nextExecId

/-- Every match references an existing OPEN on its open side and an
existing CLOSE on its close side. -/
def RefsValid (s : LedgerState) : Prop :=
  ∀ m ∈ s.execution_matches,
    (∃ e ∈ s.executions, e.id = m.open_execution_id ∧ e.side = Side.OPEN) ∧
    (∃ e ∈ s.executions, e.id = m.close_execution_id ∧ e.side = Side.CLOSE)

/-- The conservation invariant of the spec: for every execution, the
matches touching it never exceed its quantity, and `remaining_qty` is
exactly the quantity minus their sum. -/
def Conservation (s : LedgerState) : Prop :=
  ∀ e ∈ s.executions,
    sumTouching s.execution_matches e.id ≤ e.quantity ∧
    e.remaining_qty = e.quantity - sumTouching s.execution_matches e.id

/-- States reachable by the engine. -/
def GoodLedger (s : LedgerState) : Prop :=
  UniqueIds s ∧ IdsBounded s ∧ RefsValid s ∧ Conservation s

theorem initLedger_good : GoodLedger initLedger := by
  refine ⟨?_, ?_, ?_, ?_⟩ <;> simp [UniqueIds, IdsBounded, RefsValid,
    Conservation, initLedger]

/-- Two rows of a duplicate-free table with the same id are the same row. -/
theorem eq_of_mem_of_id_eq {l : List Execution}
    (hnd : (l.map (fun e => e.id)).Nodup) {a b : Execution}
    (ha : a ∈ l) (hb : b ∈ l) (hid : a.id = b.id) : a = b :=
  List.inj_on_of_nodup_map hnd ha hb hid

/-- In a duplicate-free table, `find?` by id returns the member itself. -/
theorem find?_id_of_mem {l : List Execution}
    (hnd : (l.map (fun e => e.id)).Nodup) {a : Execution} (ha : a ∈ l) :
    l.find? (fun e => decide (e.id = a.id)) = some a := by
  induction l with
  | nil => cases ha
  | cons b l ih =>
    rcases List.mem_cons.mp ha with rfl | ha'
    · simp [List.find?]
    · have hbne : b.id ≠ a.id := by
        intro h
        have : a.id ∈ l.map (fun e => e.id) := List.mem_map_of_mem _ ha'
        simp only [List.map_cons, List.nodup_cons] at hnd
        exact hnd.1 (h ▸ this)
      have hnd' : (l.map (fun e => e.id)).Nodup := by
        simp only [List.map_cons, List.nodup_cons] at hnd
        exact hnd.2
      simp [List.find?, hbne, ih hnd' ha']

/-- Membership of a duplicate-free table determines `lookupExec`. -/
theorem lookupExec_of_mem {s : LedgerState} (hnd : UniqueIds s)
    {a : Execution} (ha : a ∈ s.executions) : lookupExec s a.id = some a :=
  find?_id_of_mem hnd ha

theorem lookupExec_mem {s : LedgerState} {eid : Nat} {c : Execution}
    (h : lookupExec s eid = some c) : c ∈ s.executions ∧ c.id = eid := by
  refine ⟨List.mem_of_find?_eq_some h, ?_⟩
  have := List.find?_some h
  simpa using this

/-- Rewriting the stored remainder to the value it already holds is the
identity on the table. -/
theorem map_setRemaining_id {l : List Execution} {cid : Nat} {v : Rat}
    (hv : ∀ e ∈ l, e.id = cid → e.remaining_qty = v) :
    (l.map (fun e =>
      if e.id = cid then { e with remaining_qty := v } else e)) = l := by
  have : ∀ e ∈ l, (if e.id = cid then { e with remaining_qty := v } else e) = e := by
    intro e he
    by_cases h : e.id = cid
    · simp only [if_pos h]
      have := hv e he h
      rw [← this]
    · simp [h]
  rw [List.map_congr_left this]
  exact List.map_id l

theorem sumTouching_append (ms₁ ms₂ : List ExecutionMatch) (eid : Nat) :
    sumTouching (ms₁ ++ ms₂) eid = sumTouching ms₁ eid + sumTouching ms₂ eid := by
  simp [sumTouching, List.filter_append]

theorem sumMatchedForClose_append (ms₁ ms₂ : List ExecutionMatch) (cid : Nat) :
    sumMatchedForClose (ms₁ ++ ms₂) cid =
      sumMatchedForClose ms₁ cid + sumMatchedForClose ms₂ cid := by
  simp [sumMatchedForClose, List.filter_append]

theorem debit_cons (p : Execution × Rat) (ps : List (Execution × Rat)) (eid : Nat) :
    debit (p :: ps) eid = (if p.1.id = eid then p.2 else 0) + debit ps eid := by
  by_cases h : p.1.id = eid <;> simp [debit, List.filter_cons, h]

theorem debit_nonneg {ps : List (Execution × Rat)}
    (h : ∀ p ∈ ps, 0 ≤ p.2) (eid : Nat) : 0 ≤ debit ps eid := by
  induction ps with
  | nil => simp [debit]
  | cons p ps ih =>
    have hp := h p (List.mem_cons_self _ _)
    have ih' := ih (fun q hq => h q (List.mem_cons_of_mem _ hq))
    rw [debit_cons]
    by_cases hid : p.1.id = eid
    · simp only [if_pos hid]; positivity
    · simpa [hid] using ih'

theorem mkMatches_map_pair (cid : Nat) (n : Nat) (ps : List (Execution × Rat)) :
    (mkMatches cid n ps).map
        (fun m => (m.open_execution_id, m.matched_quantity)) =
      ps.map (fun p => (p.1.id, p.2)) := by
  induction ps generalizing n with
  | nil => simp [mkMatches]
  | cons p ps ih => simp [mkMatches, ih]

theorem mkMatches_map_open (cid : Nat) (n : Nat) (ps : List (Execution × Rat)) :
    (mkMatches cid n ps).map (fun m => m.open_execution_id) =
      ps.map (fun p => p.1.id) := by
  induction ps generalizing n with
  | nil => simp [mkMatches]
  | cons p ps ih => simp [mkMatches, ih]

theorem mkMatches_length (cid : Nat) (n : Nat) (ps : List (Execution × Rat)) :
    (mkMatches cid n ps).length = ps.length := by
  induction ps generalizing n with
  | nil => simp [mkMatches]
  | cons p ps ih => simp [mkMatches, ih]

theorem sumMatchedForClose_mkMatches (cid : Nat) (n : Nat)
    (ps : List (Execution × Rat)) :
    sumMatchedForClose (mkMatches cid n ps) cid = (ps.map (fun p => p.2)).sum := by
  induction ps generalizing n with
  | nil => simp [mkMatches, sumMatchedForClose]
  | cons p ps ih =>
    simp only [mkMatches, sumMatchedForClose, List.filter_cons] at *
    simp [ih]

theorem sumTouching_cons (m : ExecutionMatch) (ms : List ExecutionMatch)
    (eid : Nat) :
    sumTouching (m :: ms) eid =
      (if m.open_execution_id = eid ∨ m.close_execution_id = eid
        then m.matched_quantity else 0) + sumTouching ms eid := by
  by_cases h : m.open_execution_id = eid ∨ m.close_execution_id = eid <;>
    simp [sumTouching, List.filter_cons, h]

theorem sumTouching_mkMatches_close (cid : Nat) (n : Nat)
    (ps : List (Execution × Rat)) :
    sumTouching (mkMatches cid n ps) cid = (ps.map (fun p => p.2)).sum := by
  induction ps generalizing n with
  | nil => simp [mkMatches, sumTouching]
  | cons p ps ih =>
    rw [mkMatches, sumTouching_cons]
    simp [ih]

theorem sumTouching_mkMatches_ne (cid : Nat) (n : Nat)
    (ps : List (Execution × Rat)) {eid : Nat} (hne : eid ≠ cid) :
    sumTouching (mkMatches cid n ps) eid = debit ps eid := by
  induction ps generalizing n with
  | nil => simp [mkMatches, sumTouching, debit]
  | cons p ps ih =>
    rw [mkMatches, sumTouching_cons, debit_cons]
    by_cases h : p.1.id = eid
    · simp [h, Ne.symm hne, ih]
    · simp [h, Ne.symm hne, ih]

theorem sumMatchedForClose_mkMatches_ne (cid : Nat) (n : Nat)
    (ps : List (Execution × Rat)) {x : Nat} (hne : x ≠ cid) :
    sumMatchedForClose (mkMatches cid n ps) x = 0 := by
  induction ps generalizing n with
  | nil => simp [mkMatches, sumMatchedForClose]
  | cons p ps ih =>
    simp only [mkMatches, sumMatchedForClose, List.filter_cons] at *
    simp [Ne.symm hne, ih]

/-- With duplicate-free open ids, the total debit against a planned open is
exactly that pair's quantity. -/
theorem debit_eq_of_mem {ps : List (Execution × Rat)}
    (hnd : (ps.map (fun p => p.1.id)).Nodup) {o : Execution} {q : Rat}
    (hmem : (o, q) ∈ ps) : debit ps o.id = q := by
  induction ps with
  | nil => cases hmem
  | cons p ps ih =>
    simp only [List.map_cons, List.nodup_cons] at hnd
    rcases List.mem_cons.mp hmem with rfl | hmem'
    · rw [debit_cons]
      have : debit ps o.id = 0 := by
        simp only [debit]
        rw [List.filter_eq_nil_iff.mpr, List.map_nil, List.sum_nil]
        intro a ha
        simp only [decide_eq_true_eq]
        intro hc
        exact hnd.1 (hc ▸ List.mem_map_of_mem _ ha)
      simp [this]
    · rw [debit_cons]
      have hpo : p.1.id ≠ o.id := by
        intro h
        exact hnd.1 (h ▸ List.mem_map_of_mem (fun p => p.1.id) hmem')
      simp [hpo, ih hnd.2 hmem']

theorem debit_eq_zero_of_not_mem {ps : List (Execution × Rat)} {eid : Nat}
    (h : ∀ p ∈ ps, p.1.id ≠ eid) : debit ps eid = 0 := by
  simp only [debit]
  rw [List.filter_eq_nil_iff.mpr, List.map_nil, List.sum_nil]
  intro p hp
  simpa using h p hp

theorem fifoWalk_of_nonpos {l : List Execution} {r : Rat} (h : r ≤ 0) :
    fifoWalk l r = ([], r) := by
  cases l with
  | nil => rfl
  | cons o rest => simp [fifoWalk, h]

/-- The planned quantities and the final remainder add up to the starting
close remainder. -/
theorem fifoWalk_sum (l : List Execution) (r : Rat) :
    (((fifoWalk l r).1.map (fun p => p.2)).sum) + (fifoWalk l r).2 = r := by
  induction l generalizing r with
  | nil => simp [fifoWalk]
  | cons o rest ih =>
    by_cases h : r ≤ 0
    · simp [fifoWalk, h]
    · by_cases h2 : o.remaining_qty ≤ 0
      · simpa [fifoWalk, h, h2] using ih r
      · have := ih (r - min o.remaining_qty r)
        simp only [fifoWalk, if_neg h, if_neg h2, List.map_cons, List.sum_cons]
        linarith

theorem fifoWalk_rfin_nonneg (l : List Execution) {r : Rat} (h : 0 ≤ r) :
    0 ≤ (fifoWalk l r).2 := by
  induction l generalizing r with
  | nil => simpa [fifoWalk]
  | cons o rest ih =>
    by_cases h1 : r ≤ 0
    · simpa [fifoWalk, h1]
    · by_cases h2 : o.remaining_qty ≤ 0
      · simpa [fifoWalk, h1, h2] using ih h
      · have hmin : min o.remaining_qty r ≤ r := min_le_right _ _
        have : (0 : Rat) ≤ r - min o.remaining_qty r := by linarith
        simpa [fifoWalk, h1, h2] using ih this

theorem fifoWalk_pairs_mem (l : List Execution) (r : Rat) :
    ∀ p ∈ (fifoWalk l r).1,
      0 < p.2 ∧ p.2 ≤ p.1.remaining_qty ∧ p.1 ∈ l := by
  induction l generalizing r with
  | nil => simp [fifoWalk]
  | cons o rest ih =>
    by_cases h1 : r ≤ 0
    · simp [fifoWalk, h1]
    · by_cases h2 : o.remaining_qty ≤ 0
      · intro p hp
        simp only [fifoWalk, if_neg h1, if_pos h2] at hp
        have := ih r p hp
        exact ⟨this.1, this.2.1, List.mem_cons_of_mem _ this.2.2⟩
      · intro p hp
        simp only [fifoWalk, if_neg h1, if_neg h2, List.mem_cons] at hp
        rcases hp with rfl | hp'
        · refine ⟨lt_min (lt_of_not_le h2) (lt_of_not_le h1), min_le_left _ _,
            List.mem_cons_self _ _⟩
        · have := ih (r - min o.remaining_qty r) p hp'
          exact ⟨this.1, this.2.1, List.mem_cons_of_mem _ this.2.2⟩

theorem fifoWalk_opens_sublist (l : List Execution) (r : Rat) :
    ((fifoWalk l r).1.map (fun p => p.1)).Sublist l := by
  induction l generalizing r with
  | nil => simp [fifoWalk]
  | cons o rest ih =>
    by_cases h1 : r ≤ 0
    · simp [fifoWalk, h1]
    · by_cases h2 : o.remaining_qty ≤ 0
      · simp only [fifoWalk, if_neg h1, if_pos h2]
        exact (ih r).cons o
      · simp only [fifoWalk, if_neg h1, if_neg h2, List.map_cons]
        exact (ih _).cons₂ o

/-- When the walk ends with a positive remainder, every positive candidate
was fully consumed. -/
theorem fifoWalk_full_consume {l : List Execution} {r : Rat}
    (hpos : 0 < (fifoWalk l r).2) :
    ∀ o ∈ l, 0 < o.remaining_qty → (o, o.remaining_qty) ∈ (fifoWalk l r).1 := by
  induction l generalizing r with
  | nil => simp
  | cons o rest ih =>
    by_cases h1 : r ≤ 0
    · intro a ha hpa
      rw [fifoWalk_of_nonpos h1] at hpos
      exact absurd hpos (not_lt.mpr h1)
    · by_cases h2 : o.remaining_qty ≤ 0
      · intro a ha hpa
        simp only [fifoWalk, if_neg h1, if_pos h2] at hpos ⊢
        rcases List.mem_cons.mp ha with rfl | ha'
        · exact absurd hpa (not_lt.mpr h2)
        · exact ih hpos a ha' hpa
      · intro a ha hpa
        simp only [fifoWalk, if_neg h1, if_neg h2] at hpos ⊢
        have hq : min o.remaining_qty r = o.remaining_qty := by
          rcases le_total o.remaining_qty r with h | h
          · exact min_eq_left h
          · -- otherwise the next remainder is 0 and the final remainder is 0
            have hmin : min o.remaining_qty r = r := min_eq_right h
            by_cases hor : o.remaining_qty ≤ r
            · exact min_eq_left hor
            · exfalso
              rw [hmin] at hpos
              rw [show r - r = (0 : Rat) by ring,
                fifoWalk_of_nonpos (le_refl (0 : Rat))] at hpos
              simp at hpos
        rcases List.mem_cons.mp ha with rfl | ha'
        · rw [hq]
          exact List.mem_cons_self _ _
        · exact List.mem_cons_of_mem _ (ih (by simpa using hpos) a ha' hpa)

/-- With positive candidates, the walk consumes exactly
`min(total available, starting remainder)`. -/
theorem fifoWalk_sum_min {l : List Execution}
    (hall : ∀ o ∈ l, 0 < o.remaining_qty) {r : Rat} (hr : 0 < r) :
    ((fifoWalk l r).1.map (fun p => p.2)).sum =
      min ((l.map (fun e => e.remaining_qty)).sum) r := by
  induction l generalizing r with
  | nil =>
    simp only [fifoWalk, List.map_nil, List.sum_nil]
    exact (min_eq_left (le_of_lt hr)).symm
  | cons o rest ih =>
    have ho := hall o (List.mem_cons_self _ _)
    have hrest : ∀ a ∈ rest, 0 < a.remaining_qty :=
      fun a ha => hall a (List.mem_cons_of_mem _ ha)
    have hrestsum : 0 ≤ (rest.map (fun e => e.remaining_qty)).sum := by
      apply List.sum_nonneg
      intro x hx
      rcases List.mem_map.mp hx with ⟨a, ha, rfl⟩
      exact le_of_lt (hrest a ha)
    simp only [fifoWalk, if_neg (not_le.mpr hr), if_neg (not_le.mpr ho),
      List.map_cons, List.sum_cons]
    rcases lt_or_le o.remaining_qty r with hlt | hge
    · have hmin : min o.remaining_qty r = o.remaining_qty :=
        min_eq_left (le_of_lt hlt)
      rw [hmin]
      have := ih hrest (r := r - o.remaining_qty) (by linarith)
      rw [this]
      rcases le_total ((rest.map (fun e => e.remaining_qty)).sum)
          (r - o.remaining_qty) with h | h
      · rw [min_eq_left h, min_eq_left (by linarith)]
      · rw [min_eq_right h, min_eq_right (by linarith)]
        ring
    · have hmin : min o.remaining_qty r = r := min_eq_right hge
      rw [hmin, show r - r = (0 : Rat) by ring,
        fifoWalk_of_nonpos (le_refl (0 : Rat))]
      simp only [List.map_nil, List.sum_nil, add_zero]
      rw [min_eq_right (by linarith)]

/-- On positive candidates the source walk coincides with the spec's
description of the consumption loop. -/
theorem fifoWalk_eq_specFifoConsume {l : List Execution}
    (hall : ∀ o ∈ l, 0 < o.remaining_qty) (r : Rat) :
    (fifoWalk l r).1.map (fun p => (p.1.id, p.2)) = specFifoConsume l r := by
  induction l generalizing r with
  | nil => simp [fifoWalk, specFifoConsume]
  | cons o rest ih =>
    have ho := hall o (List.mem_cons_self _ _)
    have hrest : ∀ a ∈ rest, 0 < a.remaining_qty :=
      fun a ha => hall a (List.mem_cons_of_mem _ ha)
    by_cases h1 : r ≤ 0
    · simp [fifoWalk, specFifoConsume, h1]
    · simp only [fifoWalk, if_neg h1, if_neg (not_le.mpr ho),
        specFifoConsume, List.map_cons]
      exact congrArg _ (ih hrest _)

theorem specFifoConsume_of_nonpos {l : List Execution} {r : Rat} (h : r ≤ 0) :
    specFifoConsume l r = [] := by
  cases l with
  | nil => rfl
  | cons o rest => simp [specFifoConsume, h]

/-- The sequential per-pair decrements amount to debiting every row by its
total planned consumption. -/
theorem decrementOpens_eq_map (pairs : List (Execution × Rat))
    (execs : List Execution) :
    decrementOpens pairs execs = execs.map (fun e =>
      { e with remaining_qty := e.remaining_qty - debit pairs e.id }) := by
  induction pairs generalizing execs with
  | nil =>
    simp only [decrementOpens, List.foldl_nil]
    have h0 : ∀ e ∈ execs,
        ({ e with remaining_qty := e.remaining_qty - debit [] e.id }) = e := by
      intro e _
      have hz : debit [] e.id = 0 := by simp [debit]
      rw [hz, sub_zero]
    calc execs = execs.map (fun e => e) := (List.map_id' execs).symm
      _ = _ := (List.map_congr_left fun e he => (h0 e he).symm)
  | cons p ps ih =>
    have step : decrementOpens (p :: ps) execs =
        decrementOpens ps (execs.map (fun e =>
          if e.id = p.1.id then
            { e with remaining_qty := e.remaining_qty - p.2 }
          else e)) := rfl
    rw [step, ih, List.map_map]
    apply List.map_congr_left
    intro e _
    by_cases h : e.id = p.1.id
    · have hpe : p.1.id = e.id := h.symm
      simp only [Function.comp, if_pos h, debit_cons, if_pos hpe]
      have harith : e.remaining_qty - p.2 - debit ps e.id =
          e.remaining_qty - (p.2 + debit ps e.id) := by ring
      simp [harith]
    · have hpe : p.1.id ≠ e.id := fun hh => h hh.symm
      simp only [Function.comp, if_neg h, debit_cons, if_neg hpe]
      simp

/-- `find?` by id looks through a map that preserves ids. -/
theorem find?_id_through_map (l : List Execution) (f : Execution → Execution)
    (hid : ∀ e, (f e).id = e.id) (eid : Nat) :
    (l.map f).find? (fun e => decide (e.id = eid)) =
      (l.find? (fun e => decide (e.id = eid))).map f := by
  rw [List.find?_map]
  have : ((fun e : Execution => decide (e.id = eid)) ∘ f) =
      (fun e : Execution => decide (e.id = eid)) := by
    funext e
    simp [Function.comp, hid]
  rw [this]

/-- The reconcile write to the CLOSE row does not change the FIFO
candidate set: the written row is a CLOSE and fails the filter either
way, and every other row is untouched. -/
theorem filter_after_close_write {l : List Execution}
    (hnd : (l.map (fun e => e.id)).Nodup) {c : Execution} (hc : c ∈ l)
    (hside : c.side = Side.CLOSE) (v : Rat) (cl : Execution) :
    ((l.map (fun e =>
        if e.id = c.id then { e with remaining_qty := v } else e)).filter
      (candidateFilter cl)) = l.filter (candidateFilter cl) := by
  rw [List.filter_map]
  have h1 : l.filter ((candidateFilter cl) ∘ (fun e =>
      if e.id = c.id then { e with remaining_qty := v } else e)) =
      l.filter (candidateFilter cl) := by
    apply List.filter_congr
    intro e he
    by_cases h : e.id = c.id
    · have : e = c := eq_of_mem_of_id_eq hnd he hc h
      subst this
      simp [Function.comp, candidateFilter, hside]
    · simp [Function.comp, h]
  rw [h1]
  have h2 : ∀ e ∈ l.filter (candidateFilter cl),
      (if e.id = c.id then { e with remaining_qty := v } else e) = e := by
    intro e he
    rcases List.mem_filter.mp he with ⟨hel, hpe⟩
    have hne : e.id ≠ c.id := by
      intro h
      have : e = c := eq_of_mem_of_id_eq hnd hel hc h
      subst this
      simp only [candidateFilter, decide_eq_true_eq] at hpe
      rw [hside] at hpe
      exact absurd hpe.2.1 (by simp)
    simp [hne]
  calc (l.filter (candidateFilter cl)).map (fun e =>
        if e.id = c.id then { e with remaining_qty := v } else e)
      = (l.filter (candidateFilter cl)).map (fun e => e) :=
        List.map_congr_left h2
    _ = l.filter (candidateFilter cl) := List.map_id' _

/-- Unfolding `match_close_execution` when the reconciled remainder is
already exhausted: only the reconcile write happens. -/
theorem mce_eq_of_nonpos {s : LedgerState} {cid : Nat} {c : Execution}
    (hlook : lookupExec s cid = some c)
    (hexp : c.quantity - sumMatchedForClose s.execution_matches cid ≤ 0) :
    match_close_execution s cid =
      { s with executions := s.executions.map (fun e =>
          if e.id = cid then
            { e with remaining_qty :=
                c.quantity - sumMatchedForClose s.execution_matches cid }
          else e) } := by
  unfold match_close_execution
  rw [hlook]
  simp only [if_pos hexp]

/-- Unfolding `match_close_execution` when the reconciled remainder is
positive: reconcile, walk the FIFO candidates, apply the mutations. -/
theorem mce_eq_of_pos {s : LedgerState} {cid : Nat} {c : Execution}
    (hlook : lookupExec s cid = some c)
    (hexp : 0 < c.quantity - sumMatchedForClose s.execution_matches cid) :
    match_close_execution s cid =
      applyPairs
        { s with executions := s.executions.map (fun e =>
            if e.id = cid then
              { e with remaining_qty :=
                  c.quantity - sumMatchedForClose s.execution_matches cid }
            else e) }
        cid
        (fifoWalk (List.insertionSort tsIdLe
          ((s.executions.map (fun e =>
            if e.id = cid then
              { e with remaining_qty :=
                  c.quantity - sumMatchedForClose s.execution_matches cid }
            else e)).filter (candidateFilter c)))
          (c.quantity - sumMatchedForClose s.execution_matches cid)).1
        (fifoWalk (List.insertionSort tsIdLe
          ((s.executions.map (fun e =>
            if e.id = cid then
              { e with remaining_qty :=
                  c.quantity - sumMatchedForClose s.execution_matches cid }
            else e)).filter (candidateFilter c)))
          (c.quantity - sumMatchedForClose s.execution_matches cid)).2 := by
  unfold match_close_execution
  rw [hlook]
  simp only [if_neg (not_le.mpr hexp)]

/-- The ordered FIFO candidate list for a close, over the pre-call table. -/
def mceCandidates (s : LedgerState) (c : Execution) : List Execution :=
  List.insertionSort tsIdLe (s.executions.filter (candidateFilter c))

/-- Spec-side and source-side candidate sets coincide. -/
theorem specCandidates_eq_mceCandidates (s : LedgerState) (c : Execution) :
    specCandidates s c = mceCandidates s c := by
  unfold specCandidates mceCandidates
  congr 1
  apply List.filter_congr
  intro e _
  simp only [specCandidateFilter, candidateFilter]
  simp [and_comm, and_assoc, and_left_comm]

/-- The FIFO walk of `match_close_execution` over the ordered candidates,
starting from the reconciled close remainder. -/
def mceWalk (s : LedgerState) (cid : Nat) (c : Execution) :
    List (Execution × Rat) × Rat :=
  fifoWalk (mceCandidates s c)
    (c.quantity - sumMatchedForClose s.execution_matches cid)

/-- With unique ids and a CLOSE row, the positive branch of
`match_close_execution` walks the candidates of the pre-call table. -/
theorem mce_eq_of_pos' {s : LedgerState} {cid : Nat} {c : Execution}
    (hnd : UniqueIds s) (hlook : lookupExec s cid = some c)
    (hside : c.side = Side.CLOSE)
    (hexp : 0 < c.quantity - sumMatchedForClose s.execution_matches cid) :
    match_close_execution s cid =
      applyPairs
        { s with executions := s.executions.map (fun e =>
            if e.id = cid then
              { e with remaining_qty :=
                  c.quantity - sumMatchedForClose s.execution_matches cid }
            else e) }
        cid (mceWalk s cid c).1 (mceWalk s cid c).2 := by
  rcases lookupExec_mem hlook with ⟨hmem, hid⟩
  have hfil := filter_after_close_write (l := s.executions) hnd hmem hside
    (c.quantity - sumMatchedForClose s.execution_matches cid) c
  rw [mce_eq_of_pos hlook hexp]
  rw [hid] at hfil
  rw [hfil]
  rfl

theorem mceCandidates_mem {s : LedgerState} {c e : Execution}
    (he : e ∈ mceCandidates s c) :
    e ∈ s.executions ∧ e.ticker = c.ticker ∧ e.side = Side.OPEN ∧
      e.direction = c.direction ∧ 0 < e.remaining_qty := by
  have hperm := List.perm_insertionSort tsIdLe
    (s.executions.filter (candidateFilter c))
  have := hperm.mem_iff.mp he
  rcases List.mem_filter.mp this with ⟨hmem, hp⟩
  simp only [candidateFilter, decide_eq_true_eq] at hp
  exact ⟨hmem, hp.1, hp.2.1, hp.2.2.1, hp.2.2.2⟩

theorem mceCandidates_nodup {s : LedgerState} (hnd : UniqueIds s)
    (c : Execution) :
    ((mceCandidates s c).map (fun e => e.id)).Nodup := by
  have hperm := List.perm_insertionSort tsIdLe
    (s.executions.filter (candidateFilter c))
  have hsub : (s.executions.filter (candidateFilter c)).Sublist s.executions :=
    List.filter_sublist _
  have hnd' : (s.executions.map (fun e => e.id)).Nodup := hnd
  have hnd2 : ((s.executions.filter (candidateFilter c)).map
      (fun e => e.id)).Nodup :=
    (hsub.map (fun e => e.id)).nodup hnd'
  exact ((hperm.map (fun e => e.id)).nodup_iff).mpr hnd2

/-- The planned pairs of the FIFO walk over the candidates: positive
quantities bounded by the candidate's remainder, candidates of the state,
and duplicate-free open ids. -/
theorem mceWalk_pairs {s : LedgerState} (hnd : UniqueIds s) (c : Execution)
    (r : Rat) :
    (∀ p ∈ (fifoWalk (mceCandidates s c) r).1,
        0 < p.2 ∧ p.2 ≤ p.1.remaining_qty ∧ p.1 ∈ s.executions ∧
        p.1.side = Side.OPEN ∧ p.1.ticker = c.ticker ∧
        p.1.direction = c.direction) ∧
      (((fifoWalk (mceCandidates s c) r).1.map (fun p => p.1.id)).Nodup) := by
  constructor
  · intro p hp
    have h1 := fifoWalk_pairs_mem (mceCandidates s c) r p hp
    have h2 := mceCandidates_mem h1.2.2
    exact ⟨h1.1, h1.2.1, h2.1, h2.2.2.1, h2.2.1, h2.2.2.2.1⟩
  · have hsub := fifoWalk_opens_sublist (mceCandidates s c) r
    have heq : ((fifoWalk (mceCandidates s c) r).1.map (fun p => p.1.id)) =
        (((fifoWalk (mceCandidates s c) r).1.map (fun p => p.1)).map
          (fun e => e.id)) := by
      rw [List.map_map]
      rfl
    rw [heq]
    exact ((hsub.map (fun e => e.id)).nodup (mceCandidates_nodup hnd c))

theorem newMatchesOf_of_nonpos {s : LedgerState} {cid : Nat} {c : Execution}
    (hlook : lookupExec s cid = some c)
    (hexp : c.quantity - sumMatchedForClose s.execution_matches cid ≤ 0) :
    newMatchesOf s cid = [] := by
  unfold newMatchesOf
  rw [mce_eq_of_nonpos hlook hexp]
  exact List.drop_length _

theorem newMatchesOf_of_pos {s : LedgerState} {cid : Nat} {c : Execution}
    (hnd : UniqueIds s) (hlook : lookupExec s cid = some c)
    (hside : c.side = Side.CLOSE)
    (hexp : 0 < c.quantity - sumMatchedForClose s.execution_matches cid) :
    newMatchesOf s cid =
      mkMatches cid s.nextMatchId (mceWalk s cid c).1 := by
  unfold newMatchesOf
  rw [mce_eq_of_pos' hnd hlook hside hexp]
  exact List.drop_left _ _

theorem mce_matches_append {s : LedgerState} {cid : Nat} {c : Execution}
    (hnd : UniqueIds s) (hlook : lookupExec s cid = some c)
    (hside : c.side = Side.CLOSE) :
    (match_close_execution s cid).execution_matches =
      s.execution_matches ++ newMatchesOf s cid := by
  rcases le_or_lt (c.quantity - sumMatchedForClose s.execution_matches cid) 0
    with hexp | hexp
  · rw [newMatchesOf_of_nonpos hlook hexp, mce_eq_of_nonpos hlook hexp,
      List.append_nil]
  · rw [newMatchesOf_of_pos hnd hlook hside hexp,
      mce_eq_of_pos' hnd hlook hside hexp]
    rfl

/-- Shape of the executions table after a positive matching pass: the
close row holds the final remainder, every other row is debited by its
planned consumption (zero for non-candidates). -/
theorem mce_executions_of_pos {s : LedgerState} {cid : Nat} {c : Execution}
    (hnd : UniqueIds s) (hlook : lookupExec s cid = some c)
    (hside : c.side = Side.CLOSE)
    (hexp : 0 < c.quantity - sumMatchedForClose s.execution_matches cid) :
    (match_close_execution s cid).executions = s.executions.map (fun e =>
      if e.id = cid then
        { e with remaining_qty := (mceWalk s cid c).2 }
      else
        { e with remaining_qty :=
            e.remaining_qty - debit (mceWalk s cid c).1 e.id }) := by
  rw [mce_eq_of_pos' hnd hlook hside hexp]
  show ((decrementOpens _ _).map _) = _
  rw [decrementOpens_eq_map, List.map_map, List.map_map]
  apply List.map_congr_left
  intro e _
  by_cases h : e.id = cid
  · simp [Function.comp, h]
  · simp [Function.comp, h]

/-- After a positive matching pass, the close row stores the final
remainder of the walk. -/
theorem mce_close_row_of_pos {s : LedgerState} {cid : Nat} {c : Execution}
    (hnd : UniqueIds s) (hlook : lookupExec s cid = some c)
    (hside : c.side = Side.CLOSE)
    (hexp : 0 < c.quantity - sumMatchedForClose s.execution_matches cid) :
    lookupExec (match_close_execution s cid) cid =
      some { c with remaining_qty := (mceWalk s cid c).2 } := by
  rcases lookupExec_mem hlook with ⟨hmem, hid⟩
  unfold lookupExec
  rw [mce_executions_of_pos hnd hlook hside hexp]
  rw [find?_id_through_map]
  · show (lookupExec s cid).map _ = _
    rw [hlook]
    simp only [Option.map_some']
    rw [if_pos hid]
  · intro e
    by_cases h : e.id = cid <;> simp [h]

/-- After an exhausted (no-op) pass, the close row stores the reconciled
remainder. -/
theorem mce_close_row_of_nonpos {s : LedgerState} {cid : Nat} {c : Execution}
    (hlook : lookupExec s cid = some c)
    (hexp : c.quantity - sumMatchedForClose s.execution_matches cid ≤ 0) :
    lookupExec (match_close_execution s cid) cid =
      some { c with remaining_qty :=
        c.quantity - sumMatchedForClose s.execution_matches cid } := by
  rcases lookupExec_mem hlook with ⟨hmem, hid⟩
  unfold lookupExec
  rw [mce_eq_of_nonpos hlook hexp]
  show (s.executions.map _).find? _ = _
  rw [find?_id_through_map]
  · show (lookupExec s cid).map _ = _
    rw [hlook]
    simp only [Option.map_some']
    rw [if_pos hid]
  · intro e
    by_cases h : e.id = cid <;> simp [h]

/-- A concrete execution row used by the claim scenarios. -/
def sampleExec (eid : Nat) (tick : String) (dir : Direction) (sd : Side)
    (qty rem : Rat) (ts : Nat) : Execution :=
  { id := eid, source := "blofin", source_filename := "fills.csv",
    source_rowhash := none, source_execution_id := none,
    ticker := tick, direction := dir, side := sd, quantity := qty,
    remaining_qty := rem, price := some 100, fee := 0, timestamp := ts }

/-- The FIFO-ordering scenario of the spec: OPEN(t=1, qty=1),
OPEN(t=2, qty=1), CLOSE(t=3, qty=1.5). -/
def c1Ledger : LedgerState :=
  { executions :=
      [sampleExec 1 "BTC" Direction.LONG Side.OPEN 1 1 1,
       sampleExec 2 "BTC" Direction.LONG Side.OPEN 1 1 2,
       sampleExec 3 "BTC" Direction.LONG Side.CLOSE (3/2) (3/2) 3],
    execution_matches := [], nextExecId := 4, nextMatchId := 1 }

/-- The CLOSE row of the FIFO-ordering scenario. -/
def c1Close : Execution :=
  sampleExec 3 "BTC" Direction.LONG Side.CLOSE (3/2) (3/2) 3

/-- Claim C1: for every CLOSE matched against the candidate OPEN
executions of its (ticker, direction) with positive remaining quantity,
the engine consumes candidates in ascending (timestamp, id) order, taking
min(candidate.remaining_qty, close.remaining_qty) from each until the
close is consumed or candidates are exhausted: the created matches are
exactly the spec-side consumption walk over the (timestamp, id)-ordered
candidates, and the matched opens are consumed in candidate order.  In
particular, on OPEN(t=1, qty=1), OPEN(t=2, qty=1), CLOSE(t=3, qty=1.5)
both the incremental engine and the batch rebuild match 1.0 against the
t=1 OPEN and 0.5 against the t=2 OPEN. -/
theorem C1_fifo_matching_order :
    (∀ (s : LedgerState) (cid : Nat) (c : Execution),
      UniqueIds s → lookupExec s cid = some c → c.side = Side.CLOSE →
        (newMatchesOf s cid).map
            (fun m => (m.open_execution_id, m.matched_quantity)) =
          specFifoConsume (specCandidates s c)
            (c.quantity - sumMatchedForClose s.execution_matches cid) ∧
        ((newMatchesOf s cid).map (fun m => m.open_execution_id)).Sublist
          ((specCandidates s c).map (fun e => e.id))) ∧
    (newMatchesOf c1Ledger 3).map
        (fun m => (m.open_execution_id, m.matched_quantity)) =
      [(1, 1), (2, 1/2)] ∧
    rebuildCore (c1Ledger.executions.map rebuildView) =
      [{ open_execution_id := 1, close_execution_id := 3,
         matched_quantity := 1 },
       { open_execution_id := 2, close_execution_id := 3,
         matched_quantity := 1/2 }] := by
  refine ⟨?_, ?_, ?_⟩
  · intro s cid c hnd hlook hside
    rcases le_or_lt (c.quantity - sumMatchedForClose s.execution_matches cid) 0
      with hexp | hexp
    · rw [newMatchesOf_of_nonpos hlook hexp,
        specFifoConsume_of_nonpos hexp]
      exact ⟨rfl, List.nil_sublist _⟩
    · rw [newMatchesOf_of_pos hnd hlook hside hexp]
      have hallpos : ∀ o ∈ mceCandidates s c, 0 < o.remaining_qty :=
        fun o ho => (mceCandidates_mem ho).2.2.2.2
      constructor
      · rw [mkMatches_map_pair, specCandidates_eq_mceCandidates]
        exact fifoWalk_eq_specFifoConsume hallpos _
      · rw [mkMatches_map_open, specCandidates_eq_mceCandidates]
        have hsub := fifoWalk_opens_sublist (mceCandidates s c)
          (c.quantity - sumMatchedForClose s.execution_matches cid)
        have := hsub.map (fun e => e.id)
        simpa [List.map_map, mceWalk, Function.comp] using this
  · norm_num [newMatchesOf, match_close_execution, lookupExec, c1Ledger,
      c1Close, sampleExec, List.find?, sumMatchedForClose, candidateFilter,
      List.insertionSort, List.orderedInsert, tsIdLe, fifoWalk, applyPairs,
      mkMatches, decrementOpens, List.filter]
  · norm_num [rebuildCore, c1Ledger, sampleExec, rebuildView, groupKeys,
      List.insertionSort, List.orderedInsert, rebuildLe, dirRank,
      processGroup, rebuildLoop, List.filter]

theorem C1_fifo_matching_order_witness :
    UniqueIds c1Ledger ∧ lookupExec c1Ledger 3 = some c1Close ∧
    c1Close.side = Side.CLOSE ∧
    (newMatchesOf c1Ledger 3).map
        (fun m => (m.open_execution_id, m.matched_quantity)) =
      specFifoConsume (specCandidates c1Ledger c1Close)
        (c1Close.quantity - sumMatchedForClose c1Ledger.execution_matches 3) :=
  ⟨by unfold UniqueIds; decide, rfl, rfl,
    (C1_fifo_matching_order.1 c1Ledger 3 c1Close
      (by unfold UniqueIds; decide) rfl rfl).1⟩

theorem mkMatches_map_qty (cid : Nat) (n : Nat) (ps : List (Execution × Rat)) :
    (mkMatches cid n ps).map (fun m => m.matched_quantity) =
      ps.map (fun p => p.2) := by
  induction ps generalizing n with
  | nil => simp [mkMatches]
  | cons p ps ih => simp [mkMatches, ih]

/-- Total OPEN inventory available to a close. -/
def availOpen (s : LedgerState) (c : Execution) : Rat :=
  ((s.executions.filter (candidateFilter c)).map (fun e => e.remaining_qty)).sum

theorem availOpen_eq_candidates_sum (s : LedgerState) (c : Execution) :
    ((mceCandidates s c).map (fun e => e.remaining_qty)).sum = availOpen s c := by
  unfold mceCandidates availOpen
  exact ((List.perm_insertionSort tsIdLe _).map (fun e => e.remaining_qty)).sum_eq

/-- The reconciled close remainder computed at the top of
`match_close_execution` (lines 8-13): quantity minus the already matched
total. -/
def expectedRemaining (s : LedgerState) (cid : Nat) (c : Execution) : Rat :=
  c.quantity - sumMatchedForClose s.execution_matches cid

/-- The orphan-close scenario of the spec: CLOSE LONG ETH qty=1 with zero
prior OPEN inventory. -/
def c8Ledger : LedgerState :=
  { executions := [sampleExec 7 "ETH" Direction.LONG Side.CLOSE 1 1 5],
    execution_matches := [], nextExecId := 8, nextMatchId := 1 }

/-- The CLOSE row of the orphan-close scenario. -/
def c8Close : Execution := sampleExec 7 "ETH" Direction.LONG Side.CLOSE 1 1 5

/-- Claim C8: a CLOSE with insufficient OPEN inventory is not an error.
The matching pass creates matches summing to exactly
min(available inventory, reconciled close remainder) — so only the
available inventory is consumed (zero matches when no candidate exists) —
and the residual stays on the close row's `remaining_qty`, strictly
positive when the inventory cannot absorb the close.  The embedded
function is total: no exception path exists, so ingestion completes. -/
theorem C8_insufficient_inventory (s : LedgerState) (cid : Nat)
    (c : Execution) (hnd : UniqueIds s) (hlook : lookupExec s cid = some c)
    (hside : c.side = Side.CLOSE) (hexp : 0 < expectedRemaining s cid c) :
    ((newMatchesOf s cid).map (fun m => m.matched_quantity)).sum = min (availOpen s c) (expectedRemaining s cid c) ∧
    lookupExec (match_close_execution s cid) cid = some { c with remaining_qty := expectedRemaining s cid c - min (availOpen s c) (expectedRemaining s cid c) } ∧
    (availOpen s c < expectedRemaining s cid c → 0 < expectedRemaining s cid c - min (availOpen s c) (expectedRemaining s cid c)) ∧
    (s.executions.filter (candidateFilter c) = [] → newMatchesOf s cid = []) := by
  have hexp' : 0 < c.quantity - sumMatchedForClose s.execution_matches cid := hexp
  have hallpos : ∀ o ∈ mceCandidates s c, 0 < o.remaining_qty :=
    fun o ho => (mceCandidates_mem ho).2.2.2.2
  have hsum : ((newMatchesOf s cid).map (fun m => m.matched_quantity)).sum =
      min (availOpen s c) (expectedRemaining s cid c) := by
    rw [newMatchesOf_of_pos hnd hlook hside hexp', mkMatches_map_qty]
    have := fifoWalk_sum_min hallpos hexp'
    rw [availOpen_eq_candidates_sum] at this
    exact this
  refine ⟨hsum, ?_, ?_, ?_⟩
  · have hrow := mce_close_row_of_pos hnd hlook hside hexp'
    have hpairsum := fifoWalk_sum (mceCandidates s c)
      (c.quantity - sumMatchedForClose s.execution_matches cid)
    rw [newMatchesOf_of_pos hnd hlook hside hexp', mkMatches_map_qty] at hsum
    have hfin : (mceWalk s cid c).2 =
        expectedRemaining s cid c - min (availOpen s c) (expectedRemaining s cid c) := by
      have h2 : ((mceWalk s cid c).1.map (fun p => p.2)).sum =
          min (availOpen s c) (expectedRemaining s cid c) := hsum
      unfold mceWalk at h2 ⊢
      unfold expectedRemaining
      unfold expectedRemaining at h2
      linarith [hpairsum]
    rw [hrow, hfin]
  · intro hlt
    have hm : min (availOpen s c) (expectedRemaining s cid c) = availOpen s c :=
      min_eq_left (le_of_lt hlt)
    rw [hm]
    linarith
  · intro hempty
    rw [newMatchesOf_of_pos hnd hlook hside hexp']
    have hc : mceCandidates s c = [] := by
      unfold mceCandidates
      rw [hempty]
      rfl
    unfold mceWalk
    rw [hc, fifoWalk]
    rfl

theorem C8_insufficient_inventory_witness :
    UniqueIds c8Ledger ∧ lookupExec c8Ledger 7 = some c8Close ∧
    c8Close.side = Side.CLOSE ∧ 0 < expectedRemaining c8Ledger 7 c8Close ∧
    (((newMatchesOf c8Ledger 7).map (fun m => m.matched_quantity)).sum = min (availOpen c8Ledger c8Close) (expectedRemaining c8Ledger 7 c8Close) ∧
     lookupExec (match_close_execution c8Ledger 7) 7 = some { c8Close with remaining_qty := expectedRemaining c8Ledger 7 c8Close - min (availOpen c8Ledger c8Close) (expectedRemaining c8Ledger 7 c8Close) } ∧
     (availOpen c8Ledger c8Close < expectedRemaining c8Ledger 7 c8Close → 0 < expectedRemaining c8Ledger 7 c8Close - min (availOpen c8Ledger c8Close) (expectedRemaining c8Ledger 7 c8Close)) ∧
     (c8Ledger.executions.filter (candidateFilter c8Close) = [] → newMatchesOf c8Ledger 7 = [])) :=
  ⟨by unfold UniqueIds; decide, rfl, rfl,
    by norm_num [expectedRemaining, sumMatchedForClose, c8Close, c8Ledger, sampleExec],
    C8_insufficient_inventory c8Ledger 7 c8Close (by unfold UniqueIds; decide) rfl rfl
      (by norm_num [expectedRemaining, sumMatchedForClose, c8Close, c8Ledger, sampleExec])⟩

/-- The candidate query only reads ticker and direction from the close. -/
theorem candidateFilter_congr {cl cl' : Execution}
    (ht : cl.ticker = cl'.ticker) (hd : cl.direction = cl'.direction) :
    candidateFilter cl = candidateFilter cl' := by
  funext e
  unfold candidateFilter
  rw [ht, hd]

/-- An id-preserving rewrite of the table preserves the id column. -/
theorem map_ids_of_id_preserving {l : List Execution}
    {f : Execution → Execution} (hid : ∀ e, (f e).id = e.id) :
    (l.map f).map (fun e => e.id) = l.map (fun e => e.id) := by
  rw [List.map_map]
  exact List.map_congr_left (fun e _ => hid e)

/-- After a positive matching pass that leaves a positive close remainder,
no FIFO candidate for that (ticker, direction) survives with positive
remaining quantity. -/
theorem mce_no_candidates_left {s : LedgerState} {cid : Nat} {c : Execution}
    (hnd : UniqueIds s) (hlook : lookupExec s cid = some c)
    (hside : c.side = Side.CLOSE) (hexp : 0 < expectedRemaining s cid c)
    (hrfin : 0 < (mceWalk s cid c).2) (cl : Execution)
    (ht : cl.ticker = c.ticker) (hd : cl.direction = c.direction) :
    (match_close_execution s cid).executions.filter (candidateFilter cl) = [] := by
  rcases lookupExec_mem hlook with ⟨hmem, hid⟩
  have hpairs := (mceWalk_pairs hnd c
    (c.quantity - sumMatchedForClose s.execution_matches cid)).1
  have hpnd := (mceWalk_pairs hnd c
    (c.quantity - sumMatchedForClose s.execution_matches cid)).2
  rw [mce_executions_of_pos hnd hlook hside hexp]
  rw [List.filter_map]
  rw [List.filter_eq_nil_iff.mpr]
  · rfl
  intro e he
  by_cases hcid : e.id = cid
  · have : e = c := eq_of_mem_of_id_eq hnd he hmem (hcid.trans hid.symm)
    subst this
    simp only [Function.comp, if_pos hcid, candidateFilter,
      decide_eq_true_eq]
    intro hcontra
    rw [hside] at hcontra
    exact absurd hcontra.2.1 (by simp)
  · simp only [Function.comp, if_neg hcid, candidateFilter,
      decide_eq_true_eq]
    intro hcontra
    rcases hcontra with ⟨hticker, hopen, hdir, hpos⟩
    by_cases hcand : 0 < e.remaining_qty
    · -- e was a live candidate; a positive final remainder means it was
      -- fully consumed, so its new remainder is zero
      have hecand : e ∈ mceCandidates s c := by
        have : e ∈ s.executions.filter (candidateFilter c) := by
          refine List.mem_filter.mpr ⟨he, ?_⟩
          simp only [candidateFilter, decide_eq_true_eq]
          exact ⟨ht ▸ hticker, hopen, hd ▸ hdir, hcand⟩
        exact (List.perm_insertionSort tsIdLe _).mem_iff.mpr this
      have hfull := fifoWalk_full_consume hrfin e hecand hcand
      have hdeb : debit (mceWalk s cid c).1 e.id = e.remaining_qty :=
        debit_eq_of_mem hpnd hfull
      rw [hdeb] at hpos
      simp at hpos
    · -- e was already exhausted; debits are nonnegative
      have hdebnn : 0 ≤ debit (mceWalk s cid c).1 e.id :=
        debit_nonneg (fun p hp => le_of_lt (hpairs p hp).1) e.id
      push_neg at hcand
      have : e.remaining_qty - debit (mceWalk s cid c).1 e.id ≤ 0 := by
        linarith
      exact absurd hpos (not_lt.mpr this)

theorem ledger_set_execs_self (s : LedgerState) (l : List Execution)
    (h : l = s.executions) : ({ s with executions := l } : LedgerState) = s := by
  rw [h]

theorem applyPairs_nil (s : LedgerState) (cid : Nat) (v : Rat)
    (h : s.executions.map (fun e => if e.id = cid then { e with remaining_qty := v } else e) = s.executions) :
    applyPairs s cid [] v = s := by
  unfold applyPairs decrementOpens mkMatches
  simp only [List.foldl_nil, List.append_nil, List.length_nil, Nat.add_zero]
  rw [h]

theorem mceWalk_of_no_candidates {s : LedgerState} {cid : Nat}
    {c : Execution} (h : mceCandidates s c = []) :
    mceWalk s cid c =
      ([], c.quantity - sumMatchedForClose s.execution_matches cid) := by
  unfold mceWalk
  rw [h]
  rfl

/-- Claim C4: matching a CLOSE that was already processed is a no-op.
`match_close_execution` first reconciles the close's remainder against the
recorded matches (rather than trusting the stored value); a second run on
the same close finds either an exhausted remainder or no surviving
candidate inventory, creates no match and changes nothing: running the
pass twice equals running it once. -/
theorem C4_match_close_reentrant (s : LedgerState) (cid : Nat) (c : Execution)
    (hnd : UniqueIds s) (hlook : lookupExec s cid = some c)
    (hside : c.side = Side.CLOSE) :
    match_close_execution (match_close_execution s cid) cid =
      match_close_execution s cid := by
  rcases lookupExec_mem hlook with ⟨hmem, hid⟩
  rcases le_or_lt (c.quantity - sumMatchedForClose s.execution_matches cid) 0
    with hexp | hexp
  · -- the first call was already exhausted after reconciliation
    have hs' := mce_eq_of_nonpos hlook hexp
    have hrow := mce_close_row_of_nonpos hlook hexp
    have hm : (match_close_execution s cid).execution_matches =
        s.execution_matches := by rw [hs']
    have hexp2 : ({ c with remaining_qty := c.quantity - sumMatchedForClose s.execution_matches cid } : Execution).quantity -
        sumMatchedForClose (match_close_execution s cid).execution_matches cid ≤ 0 := by
      rw [hm]
      exact hexp
    have hwrite1 : ∀ e ∈ (match_close_execution s cid).executions,
        e.id = cid → e.remaining_qty =
          c.quantity - sumMatchedForClose s.execution_matches cid := by
      intro e he hida
      rw [hs'] at he
      rcases List.mem_map.mp he with ⟨a, ha, rfl⟩
      by_cases h : a.id = cid
      · simp [h]
      · simp only [if_neg h] at hida ⊢
        exact absurd hida h
    have hexp2eq : ({ c with remaining_qty := c.quantity - sumMatchedForClose s.execution_matches cid } : Execution).quantity -
        sumMatchedForClose (match_close_execution s cid).execution_matches cid =
        c.quantity - sumMatchedForClose s.execution_matches cid := by
      rw [hm]
    rw [mce_eq_of_nonpos hrow hexp2]
    exact ledger_set_execs_self _ _ (map_setRemaining_id
      (fun e he h => (hwrite1 e he h).trans hexp2eq.symm))
  · -- the first call ran the FIFO walk
    have hrow := mce_close_row_of_pos hnd hlook hside hexp
    have hexecs := mce_executions_of_pos hnd hlook hside hexp
    have hqsum' : ((mceWalk s cid c).1.map (fun p => p.2)).sum +
        (mceWalk s cid c).2 =
        c.quantity - sumMatchedForClose s.execution_matches cid := by
      unfold mceWalk
      exact fifoWalk_sum _ _
    have hm : (match_close_execution s cid).execution_matches =
        s.execution_matches ++ mkMatches cid s.nextMatchId (mceWalk s cid c).1 := by
      rw [mce_eq_of_pos' hnd hlook hside hexp]
      rfl
    have hsum2 : sumMatchedForClose
        (match_close_execution s cid).execution_matches cid =
        c.quantity - (mceWalk s cid c).2 := by
      rw [hm, sumMatchedForClose_append, sumMatchedForClose_mkMatches]
      linarith [hqsum']
    have hexp2 : ({ c with remaining_qty := (mceWalk s cid c).2 } : Execution).quantity -
        sumMatchedForClose (match_close_execution s cid).execution_matches cid =
        (mceWalk s cid c).2 := by
      rw [hsum2]
      show c.quantity - _ = _
      ring
    have hwrite : ∀ e ∈ (match_close_execution s cid).executions,
        e.id = cid → e.remaining_qty = (mceWalk s cid c).2 := by
      intro e he hida
      rw [hexecs] at he
      rcases List.mem_map.mp he with ⟨a, ha, rfl⟩
      by_cases h : a.id = cid
      · simp [h]
      · simp only [if_neg h] at hida ⊢
        exact absurd hida h
    have hv : ∀ e ∈ (match_close_execution s cid).executions, e.id = cid →
        e.remaining_qty =
          ({ c with remaining_qty := (mceWalk s cid c).2 } : Execution).quantity -
            sumMatchedForClose (match_close_execution s cid).execution_matches cid :=
      fun e he h => (hwrite e he h).trans hexp2.symm
    have hs1 : ((match_close_execution s cid).executions.map (fun e =>
        if e.id = cid then { e with remaining_qty := ({ c with remaining_qty := (mceWalk s cid c).2 } : Execution).quantity - sumMatchedForClose (match_close_execution s cid).execution_matches cid } else e)) =
        (match_close_execution s cid).executions :=
      map_setRemaining_id hv
    rcases le_or_lt ((mceWalk s cid c).2) 0 with hrfin | hrfin
    · -- fully consumed close: the second call exhausts at reconciliation
      have hexp2' : ({ c with remaining_qty := (mceWalk s cid c).2 } : Execution).quantity -
          sumMatchedForClose (match_close_execution s cid).execution_matches cid ≤ 0 := by
        rw [hexp2]
        exact hrfin
      rw [mce_eq_of_nonpos hrow hexp2']
      exact ledger_set_execs_self _ _ hs1
    · -- residual close remainder: no candidate survives, the walk is empty
      have hnd' : UniqueIds (match_close_execution s cid) := by
        unfold UniqueIds
        rw [hexecs]
        rw [map_ids_of_id_preserving]
        · exact hnd
        · intro e
          by_cases h : e.id = cid <;> simp [h]
      have hexp2p : 0 < ({ c with remaining_qty := (mceWalk s cid c).2 } : Execution).quantity -
          sumMatchedForClose (match_close_execution s cid).execution_matches cid := by
        rw [hexp2]
        exact hrfin
      have hside2 : ({ c with remaining_qty := (mceWalk s cid c).2 } : Execution).side = Side.CLOSE :=
        hside
      rw [mce_eq_of_pos' hnd' hrow hside2 hexp2p]
      have hnocand := mce_no_candidates_left hnd hlook hside hexp hrfin
        ({ c with remaining_qty := (mceWalk s cid c).2 } : Execution) rfl rfl
      have hcand2 : mceCandidates (match_close_execution s cid)
          ({ c with remaining_qty := (mceWalk s cid c).2 } : Execution) = [] := by
        unfold mceCandidates
        rw [hnocand]
        rfl
      rw [mceWalk_of_no_candidates hcand2]
      rw [ledger_set_execs_self _ _ hs1]
      exact applyPairs_nil _ _ _ hs1

theorem C4_match_close_reentrant_witness :
    UniqueIds c1Ledger ∧ lookupExec c1Ledger 3 = some c1Close ∧
    c1Close.side = Side.CLOSE ∧
    match_close_execution (match_close_execution c1Ledger 3) 3 =
      match_close_execution c1Ledger 3 :=
  ⟨by unfold UniqueIds; decide, rfl, rfl,
    C4_match_close_reentrant c1Ledger 3 c1Close
      (by unfold UniqueIds; decide) rfl rfl⟩

/-- For a CLOSE row in a well-referenced table, touching matches are
exactly the close-side references. -/
theorem sumTouching_eq_close {s : LedgerState} (hnd : UniqueIds s)
    (hrefs : RefsValid s) {e : Execution} (he : e ∈ s.executions)
    (hside : e.side = Side.CLOSE) :
    sumTouching s.execution_matches e.id =
      sumMatchedForClose s.execution_matches e.id := by
  unfold sumTouching sumMatchedForClose
  have hf : (s.execution_matches.filter (fun m =>
      decide (m.open_execution_id = e.id ∨ m.close_execution_id = e.id))) =
      s.execution_matches.filter (fun m =>
        decide (m.close_execution_id = e.id)) := by
    apply List.filter_congr
    intro m hm
    have hopen := (hrefs m hm).1
    rcases hopen with ⟨eo, heo, hoid, hoside⟩
    have : m.open_execution_id ≠ e.id := by
      intro h
      have : eo = e := eq_of_mem_of_id_eq hnd heo he (hoid.trans h)
      rw [this] at hoside
      rw [hside] at hoside
      exact absurd hoside (by simp)
    simp [this]
  rw [hf]

/-- For an OPEN row in a well-referenced table, touching matches are
exactly the open-side references. -/
theorem sumTouching_eq_open {s : LedgerState} (hnd : UniqueIds s)
    (hrefs : RefsValid s) {e : Execution} (he : e ∈ s.executions)
    (hside : e.side = Side.OPEN) :
    sumTouching s.execution_matches e.id =
      sumMatchedForOpen s.execution_matches e.id := by
  unfold sumTouching sumMatchedForOpen
  have hf : (s.execution_matches.filter (fun m =>
      decide (m.open_execution_id = e.id ∨ m.close_execution_id = e.id))) =
      s.execution_matches.filter (fun m =>
        decide (m.open_execution_id = e.id)) := by
    apply List.filter_congr
    intro m hm
    have hclose := (hrefs m hm).2
    rcases hclose with ⟨ec, hec, hcid, hcside⟩
    have : m.close_execution_id ≠ e.id := by
      intro h
      have : ec = e := eq_of_mem_of_id_eq hnd hec he (hcid.trans h)
      rw [this] at hcside
      rw [hside] at hcside
      exact absurd hcside (by simp)
    simp [this]
  rw [hf]

theorem mkMatches_mem {cid : Nat} {n : Nat} {ps : List (Execution × Rat)}
    {m : ExecutionMatch} (hm : m ∈ mkMatches cid n ps) :
    ∃ p ∈ ps, m.open_execution_id = p.1.id ∧ m.close_execution_id = cid ∧
      m.matched_quantity = p.2 := by
  induction ps generalizing n with
  | nil => cases hm
  | cons p ps ih =>
    rcases List.mem_cons.mp hm with rfl | hm'
    · exact ⟨p, List.mem_cons_self _ _, rfl, rfl, rfl⟩
    · rcases ih hm' with ⟨q, hq, h1, h2, h3⟩
      exact ⟨q, List.mem_cons_of_mem _ hq, h1, h2, h3⟩

/-- A matching pass never disturbs the id column. -/
theorem mce_uniqueIds {s : LedgerState} {cid : Nat} {c : Execution}
    (hnd : UniqueIds s) (hlook : lookupExec s cid = some c)
    (hside : c.side = Side.CLOSE) :
    UniqueIds (match_close_execution s cid) := by
  rcases le_or_lt (c.quantity - sumMatchedForClose s.execution_matches cid) 0
    with hexp | hexp
  · unfold UniqueIds
    rw [mce_eq_of_nonpos hlook hexp]
    show ((s.executions.map _).map _).Nodup
    rw [map_ids_of_id_preserving]
    · exact hnd
    · intro e
      by_cases h : e.id = cid <;> simp [h]
  · unfold UniqueIds
    rw [mce_executions_of_pos hnd hlook hside hexp]
    rw [map_ids_of_id_preserving]
    · exact hnd
    · intro e
      by_cases h : e.id = cid <;> simp [h]

theorem applyIngest_cases (s : LedgerState) (p : IngestPayload) :
    (applyIngest s p).1 = s ∨
      (applyIngest s p).1 = { s with
        executions := s.executions ++ [execOfPayload p s.nextExecId],
        nextExecId := s.nextExecId + 1 } := by
  unfold applyIngest
  cases hsr : p.source_rowhash with
  | some h =>
    cases hfind : s.executions.find? (rowhashKeyMatch p) with
    | some existing => exact Or.inl rfl
    | none => exact Or.inr rfl
  | none =>
    cases hsei : p.source_execution_id with
    | some h =>
      cases hfind : s.executions.find? (sourceExecIdKeyMatch p) with
      | some existing => exact Or.inl rfl
      | none => exact Or.inr rfl
    | none => exact Or.inr rfl

/-- One matching pass on a CLOSE row of a good ledger yields a good ledger
and never increases any row's `remaining_qty`. -/
theorem mce_good_mono {s : LedgerState} {cid : Nat} {c : Execution}
    (hG : GoodLedger s) (hlook : lookupExec s cid = some c)
    (hside : c.side = Side.CLOSE) :
    GoodLedger (match_close_execution s cid) ∧
    ∀ (eid : Nat) (e : Execution), lookupExec s eid = some e →
      ∃ e', lookupExec (match_close_execution s cid) eid = some e' ∧
        e'.remaining_qty ≤ e.remaining_qty := by
  obtain ⟨hnd, hbd, hrefs, hcons⟩ := hG
  rcases lookupExec_mem hlook with ⟨hmem, hid⟩
  have hcrq : c.remaining_qty =
      c.quantity - sumMatchedForClose s.execution_matches cid := by
    have h1 := (hcons c hmem).2
    rw [sumTouching_eq_close hnd hrefs hmem hside, hid] at h1
    exact h1
  rcases le_or_lt (c.quantity - sumMatchedForClose s.execution_matches cid) 0
    with hexp | hexp
  · -- reconciliation finds the stored value; the pass is the identity
    have hmce : match_close_execution s cid = s := by
      rw [mce_eq_of_nonpos hlook hexp]
      apply ledger_set_execs_self
      apply map_setRemaining_id
      intro e he hida
      have he2 : e = c := eq_of_mem_of_id_eq hnd he hmem (hida.trans hid.symm)
      rw [he2, hcrq]
    rw [hmce]
    exact ⟨⟨hnd, hbd, hrefs, hcons⟩, fun eid e hl => ⟨e, hl, le_refl _⟩⟩
  · have hexecs := mce_executions_of_pos hnd hlook hside hexp
    have hm : (match_close_execution s cid).execution_matches =
        s.execution_matches ++ mkMatches cid s.nextMatchId (mceWalk s cid c).1 := by
      rw [mce_eq_of_pos' hnd hlook hside hexp]
      rfl
    have hpairs : ∀ p ∈ (mceWalk s cid c).1,
        0 < p.2 ∧ p.2 ≤ p.1.remaining_qty ∧ p.1 ∈ s.executions ∧
        p.1.side = Side.OPEN ∧ p.1.ticker = c.ticker ∧
        p.1.direction = c.direction :=
      (mceWalk_pairs hnd c
        (c.quantity - sumMatchedForClose s.execution_matches cid)).1
    have hpnd : ((mceWalk s cid c).1.map (fun p => p.1.id)).Nodup :=
      (mceWalk_pairs hnd c
        (c.quantity - sumMatchedForClose s.execution_matches cid)).2
    have hqsum' : ((mceWalk s cid c).1.map (fun p => p.2)).sum +
        (mceWalk s cid c).2 =
        c.quantity - sumMatchedForClose s.execution_matches cid := by
      unfold mceWalk
      exact fifoWalk_sum _ _
    have hrfin0 : 0 ≤ (mceWalk s cid c).2 := by
      unfold mceWalk
      exact fifoWalk_rfin_nonneg _ (le_of_lt hexp)
    have hqsum0 : 0 ≤ ((mceWalk s cid c).1.map (fun p => p.2)).sum := by
      apply List.sum_nonneg
      intro x hx
      rcases List.mem_map.mp hx with ⟨p, hp, rfl⟩
      exact le_of_lt (hpairs p hp).1
    have hdebit_le : ∀ a ∈ s.executions, a.id ≠ cid →
        debit (mceWalk s cid c).1 a.id ≤ a.remaining_qty := by
      intro a ha hane
      by_cases hex : ∃ p ∈ (mceWalk s cid c).1, p.1.id = a.id
      · rcases hex with ⟨p, hp, hpid⟩
        have hfacts := hpairs p hp
        have hpa : p.1 = a := eq_of_mem_of_id_eq hnd hfacts.2.2.1 ha hpid
        have hmem3 : (a, p.2) ∈ (mceWalk s cid c).1 := by
          rw [← hpa]
          exact hp
        have := debit_eq_of_mem hpnd hmem3
        rw [this]
        rw [← hpa]
        exact hfacts.2.1
      · push_neg at hex
        rw [debit_eq_zero_of_not_mem hex]
        have := (hcons a ha).1
        have h2 := (hcons a ha).2
        linarith
    have hdebit0 : ∀ (x : Nat), 0 ≤ debit (mceWalk s cid c).1 x :=
      debit_nonneg (fun p hp => le_of_lt (hpairs p hp).1)
    constructor
    · refine ⟨mce_uniqueIds hnd hlook hside, ?_, ?_, ?_⟩
      · -- ids stay below the unchanged counter
        intro e' he'
        have hnext : (match_close_execution s cid).nextExecId = s.nextExecId := by
          rw [mce_eq_of_pos' hnd hlook hside hexp]
          rfl
        rw [hexecs] at he'
        rw [hnext]
        rcases List.mem_map.mp he' with ⟨a, ha, rfl⟩
        by_cases h : a.id = cid
        · simpa [h] using hbd a ha
        · simpa [h] using hbd a ha
      · -- all references stay valid
        intro m hm'
        rw [hm] at hm'
        rw [hexecs]
        rcases List.mem_append.mp hm' with hold | hnew
        · obtain ⟨⟨eo, heo, hoid, hoside⟩, ⟨ec, hec, hcid2, hcside⟩⟩ :=
            hrefs m hold
          constructor
          · refine ⟨_, List.mem_map_of_mem _ heo, ?_, ?_⟩
            · by_cases h : eo.id = cid
              · simp only [if_pos h]
                exact hoid
              · simp only [if_neg h]
                exact hoid
            · by_cases h : eo.id = cid
              · simp only [if_pos h]
                exact hoside
              · simp only [if_neg h]
                exact hoside
          · refine ⟨_, List.mem_map_of_mem _ hec, ?_, ?_⟩
            · by_cases h : ec.id = cid
              · simp only [if_pos h]
                exact hcid2
              · simp only [if_neg h]
                exact hcid2
            · by_cases h : ec.id = cid
              · simp only [if_pos h]
                exact hcside
              · simp only [if_neg h]
                exact hcside
        · obtain ⟨p, hp, h1, h2, h3⟩ := mkMatches_mem hnew
          have hfacts := hpairs p hp
          have hpne : p.1.id ≠ cid := by
            intro hcontra
            have hpc : p.1 = c := eq_of_mem_of_id_eq hnd hfacts.2.2.1 hmem
              (hcontra.trans hid.symm)
            have := hpc ▸ hfacts.2.2.2.1
            rw [hside] at this
            exact absurd this (by simp)
          constructor
          · refine ⟨_, List.mem_map_of_mem _ hfacts.2.2.1, ?_, ?_⟩
            · simp only [if_neg hpne]
              exact h1.symm
            · simp only [if_neg hpne]
              exact hfacts.2.2.2.1
          · refine ⟨_, List.mem_map_of_mem _ hmem, ?_, ?_⟩
            · simp only [if_pos hid]
              exact hid.trans h2.symm
            · simp only [if_pos hid]
              exact hside
      · -- conservation
        intro e' he'
        rw [hexecs] at he'
        rcases List.mem_map.mp he' with ⟨a, ha, rfl⟩
        obtain ⟨hle_a, heq_a⟩ := hcons a ha
        by_cases h : a.id = cid
        · have hac : a = c := eq_of_mem_of_id_eq hnd ha hmem (h.trans hid.symm)
          have hsum_old2 : sumTouching s.execution_matches a.id =
              sumMatchedForClose s.execution_matches cid := by
            rw [hac, sumTouching_eq_close hnd hrefs hmem hside, hid]
          simp only [if_pos h]
          constructor
          · show sumTouching (match_close_execution s cid).execution_matches
              a.id ≤ a.quantity
            rw [hm, sumTouching_append, hsum_old2, h,
              sumTouching_mkMatches_close, hac]
            linarith
          · show (mceWalk s cid c).2 = a.quantity -
              sumTouching (match_close_execution s cid).execution_matches a.id
            rw [hm, sumTouching_append, hsum_old2, h,
              sumTouching_mkMatches_close, hac]
            linarith
        · have hdeb := hdebit_le a ha h
          simp only [if_neg h]
          constructor
          · show sumTouching (match_close_execution s cid).execution_matches
              a.id ≤ a.quantity
            rw [hm, sumTouching_append, sumTouching_mkMatches_ne _ _ _ h]
            linarith
          · show a.remaining_qty - debit (mceWalk s cid c).1 a.id =
              a.quantity -
                sumTouching (match_close_execution s cid).execution_matches a.id
            rw [hm, sumTouching_append, sumTouching_mkMatches_ne _ _ _ h]
            linarith
    · -- monotonicity of remaining_qty
      intro eid e hl
      rcases lookupExec_mem hl with ⟨hmem2, hid2⟩
      have hfe : lookupExec (match_close_execution s cid) eid =
          some (if e.id = cid then
            { e with remaining_qty := (mceWalk s cid c).2 }
          else
            { e with remaining_qty :=
                e.remaining_qty - debit (mceWalk s cid c).1 e.id }) := by
        unfold lookupExec
        rw [hexecs, find?_id_through_map]
        · show (lookupExec s eid).map _ = _
          rw [hl]
          rfl
        · intro a
          by_cases ha : a.id = cid <;> simp [ha]
      by_cases h : e.id = cid
      · have hec : e = c := eq_of_mem_of_id_eq hnd hmem2 hmem (h.trans hid.symm)
        rw [hfe]
        refine ⟨_, rfl, ?_⟩
        simp only [if_pos h]
        show (mceWalk s cid c).2 ≤ e.remaining_qty
        rw [hec, hcrq]
        linarith
      · rw [hfe]
        refine ⟨_, rfl, ?_⟩
        simp only [if_neg h]
        show e.remaining_qty - _ ≤ e.remaining_qty
        linarith [hdebit0 e.id]

/-- Ingestion of a nonnegative-quantity payload keeps the ledger good and
touches no existing row. -/
theorem ingest_good_mono {s : LedgerState} {p : IngestPayload}
    (hG : GoodLedger s) (hq : 0 ≤ p.quantity) :
    GoodLedger (applyIngest s p).1 ∧
    ∀ (eid : Nat) (e : Execution), lookupExec s eid = some e →
      lookupExec (applyIngest s p).1 eid = some e := by
  rcases applyIngest_cases s p with hcase | hcase
  · rw [hcase]
    exact ⟨hG, fun eid e h => h⟩
  · obtain ⟨hnd, hbd, hrefs, hcons⟩ := hG
    rw [hcase]
    have hfresh : ∀ e ∈ s.executions, e.id ≠ s.nextExecId := by
      intro e he h
      exact absurd (hbd e he) (by rw [h]; exact lt_irrefl _)
    have hz : sumTouching s.execution_matches s.nextExecId = 0 := by
      unfold sumTouching
      rw [List.filter_eq_nil_iff.mpr, List.map_nil, List.sum_nil]
      intro m hm
      simp only [decide_eq_true_eq]
      rintro (h | h)
      · rcases (hrefs m hm).1 with ⟨eo, heo, hoid, _⟩
        exact hfresh eo heo (hoid.trans h)
      · rcases (hrefs m hm).2 with ⟨ec, hec, hcid, _⟩
        exact hfresh ec hec (hcid.trans h)
    constructor
    · refine ⟨?_, ?_, ?_, ?_⟩
      · unfold UniqueIds
        show ((s.executions ++ [execOfPayload p s.nextExecId]).map
          (fun e => e.id)).Nodup
        rw [List.map_append]
        rw [List.nodup_append]
        refine ⟨hnd, List.nodup_singleton _, ?_⟩
        intro x hx hx2
        rcases List.mem_map.mp hx with ⟨a, ha, rfl⟩
        simp only [List.map_cons, List.map_nil, List.mem_singleton] at hx2
        exact hfresh a ha hx2
      · intro e he
        rcases List.mem_append.mp he with h | h
        · exact Nat.lt_succ_of_lt (hbd e h)
        · simp only [List.mem_singleton] at h
          rw [h]
          exact Nat.lt_succ_self _
      · intro m hm
        obtain ⟨⟨eo, heo, h1, h2⟩, ⟨ec, hec, h3, h4⟩⟩ := hrefs m hm
        exact ⟨⟨eo, List.mem_append_left _ heo, h1, h2⟩,
          ⟨ec, List.mem_append_left _ hec, h3, h4⟩⟩
      · intro e he
        rcases List.mem_append.mp he with h | h
        · exact hcons e h
        · simp only [List.mem_singleton] at h
          rw [h]
          show sumTouching s.execution_matches s.nextExecId ≤ p.quantity ∧
            p.quantity = p.quantity - sumTouching s.execution_matches s.nextExecId
          rw [hz]
          exact ⟨hq, (sub_zero _).symm⟩
    · intro eid e h
      show (s.executions ++ [execOfPayload p s.nextExecId]).find? _ = some e
      rw [List.find?_append]
      show ((lookupExec s eid).or _) = some e
      rw [h]
      rfl

/-- Quantity sanity of one operation: ingested payloads carry a
nonnegative quantity (the data model demands a positive one). -/
def opQtyOk : LedgerOp → Prop
  | LedgerOp.ingest p => 0 ≤ p.quantity
  | LedgerOp.matchClose _ => True

theorem applyOp_good_mono {s : LedgerState} {op : LedgerOp}
    (hG : GoodLedger s) (hq : opQtyOk op) :
    GoodLedger (applyOp s op) ∧
    ∀ (eid : Nat) (e : Execution), lookupExec s eid = some e →
      ∃ e', lookupExec (applyOp s op) eid = some e' ∧
        e'.remaining_qty ≤ e.remaining_qty := by
  cases op with
  | ingest p =>
    have h := ingest_good_mono hG hq
    exact ⟨h.1, fun eid e hl => ⟨e, h.2 eid e hl, le_refl _⟩⟩
  | matchClose cid =>
    cases hl : lookupExec s cid with
    | none =>
      simp only [applyOp, hl]
      exact ⟨hG, fun eid e h => ⟨e, h, le_refl _⟩⟩
    | some c =>
      by_cases hs : c.side = Side.CLOSE
      · simp only [applyOp, hl, if_pos hs]
        exact mce_good_mono hG hl hs
      · simp only [applyOp, hl, if_neg hs]
        exact ⟨hG, fun eid e h => ⟨e, h, le_refl _⟩⟩

theorem applyOps_good_mono {s : LedgerState} {ops : List LedgerOp}
    (hG : GoodLedger s) (hq : ∀ op ∈ ops, opQtyOk op) :
    GoodLedger (applyOps s ops) ∧
    ∀ (eid : Nat) (e : Execution), lookupExec s eid = some e →
      ∃ e', lookupExec (applyOps s ops) eid = some e' ∧
        e'.remaining_qty ≤ e.remaining_qty := by
  induction ops generalizing s with
  | nil => exact ⟨hG, fun eid e h => ⟨e, h, le_refl _⟩⟩
  | cons op ops ih =>
    have hstep := applyOp_good_mono hG (hq op (List.mem_cons_self _ _))
    have hrest := ih hstep.1 (fun o ho => hq o (List.mem_cons_of_mem _ ho))
    refine ⟨hrest.1, ?_⟩
    intro eid e hl
    rcases hstep.2 eid e hl with ⟨e1, hl1, hle1⟩
    rcases hrest.2 eid e1 hl1 with ⟨e2, hl2, hle2⟩
    exact ⟨e2, hl2, le_trans hle2 hle1⟩

/-- Claim C2: conservation.  Starting from an empty ledger, after any
sequence of ingest/match operations (with the data model's nonnegative
ingested quantities), every execution satisfies
Σ(matched_quantity of matches touching it) ≤ quantity and
remaining_qty = quantity − that sum; and under any further operations its
remaining_qty never increases. -/
theorem C2_conservation (ops : List LedgerOp)
    (hq : ∀ op ∈ ops, opQtyOk op) (e : Execution)
    (he : e ∈ (applyOps initLedger ops).executions) :
    (sumTouching (applyOps initLedger ops).execution_matches e.id ≤
        e.quantity ∧
      e.remaining_qty = e.quantity -
        sumTouching (applyOps initLedger ops).execution_matches e.id) ∧
    ∀ (more : List LedgerOp), (∀ op ∈ more, opQtyOk op) →
      ∀ e', lookupExec (applyOps (applyOps initLedger ops) more) e.id =
          some e' → e'.remaining_qty ≤ e.remaining_qty := by
  have hG := (applyOps_good_mono initLedger_good hq).1
  obtain ⟨hnd, hbd, hrefs, hcons⟩ := hG
  refine ⟨hcons e he, ?_⟩
  intro more hq' e' hl'
  have hGshape : GoodLedger (applyOps initLedger ops) := ⟨hnd, hbd, hrefs, hcons⟩
  rcases (applyOps_good_mono hGshape hq').2 e.id e (lookupExec_of_mem hnd he)
    with ⟨e'', hl'', hle''⟩
  rw [hl'] at hl''
  rw [Option.some.inj hl'']
  exact hle''

/-- The OPEN LONG BTC qty=2 ingestion payload of the spec's concrete
scenario. -/
def c2Payload : IngestPayload :=
  { source := "blofin", source_filename := "fills.csv",
    source_rowhash := some "row-1", source_execution_id := none,
    ticker := "BTC", direction := Direction.LONG, side := Side.OPEN,
    quantity := 2, price := some 40000, fee := 0, occurred_at := 10 }

theorem C2_conservation_witness :
    (∀ op ∈ [LedgerOp.ingest c2Payload], opQtyOk op) ∧
    execOfPayload c2Payload 1 ∈
      (applyOps initLedger [LedgerOp.ingest c2Payload]).executions ∧
    ((sumTouching (applyOps initLedger [LedgerOp.ingest c2Payload]).execution_matches (execOfPayload c2Payload 1).id ≤ (execOfPayload c2Payload 1).quantity ∧
      (execOfPayload c2Payload 1).remaining_qty = (execOfPayload c2Payload 1).quantity - sumTouching (applyOps initLedger [LedgerOp.ingest c2Payload]).execution_matches (execOfPayload c2Payload 1).id) ∧
     ∀ (more : List LedgerOp), (∀ op ∈ more, opQtyOk op) →
       ∀ e', lookupExec (applyOps (applyOps initLedger [LedgerOp.ingest c2Payload]) more) (execOfPayload c2Payload 1).id = some e' →
         e'.remaining_qty ≤ (execOfPayload c2Payload 1).remaining_qty) :=
  ⟨by intro op hop
      simp only [List.mem_singleton] at hop
      rw [hop]
      show (0 : Rat) ≤ 2
      norm_num,
   List.mem_singleton_self _,
   C2_conservation [LedgerOp.ingest c2Payload]
     (by intro op hop
         simp only [List.mem_singleton] at hop
         rw [hop]
         show (0 : Rat) ≤ 2
         norm_num)
     (execOfPayload c2Payload 1) (List.mem_singleton_self _)⟩

/-- The columns the rowhash dedupe gate can observe, plus the id. -/
def dedupeView (e : Execution) : Nat × String × String × Option String :=
  (e.id, e.source, e.source_filename, e.source_rowhash)

/-- The rowhash dedupe predicate expressed on the view. -/
def rowhashViewKey (p : IngestPayload) :
    Nat × String × String × Option String → Bool := fun v =>
  decide (v.2.1 = p.source ∧ v.2.2.1 = p.source_filename ∧
    v.2.2.2 = p.source_rowhash)

theorem rowhashKeyMatch_factors (p : IngestPayload) (e : Execution) :
    rowhashKeyMatch p e = rowhashViewKey p (dedupeView e) := rfl

/-- The legacy matching loop only rewrites `remaining_qty`: the dedupe
view of the executions table is untouched. -/
theorem matcherLoop_view (close : Execution) (fuel : Nat) :
    ∀ (execs : List Execution) (ms : List MatcherMatch) (r : Rat),
      ((matcherLoop close fuel execs ms r).1).map dedupeView =
        execs.map dedupeView := by
  induction fuel with
  | zero => intro execs ms r; rfl
  | succ fuel ih =>
    intro execs ms r
    unfold matcherLoop
    by_cases h : r ≤ 0
    · simp [h]
    · simp only [if_neg h]
      cases hh : (List.insertionSort tsIdLe
          (execs.filter (legacyCandidateFilter close))).head? with
      | none => simp
      | some cand =>
        simp only []
        rw [ih]
        rw [List.map_map, List.map_map]
        apply List.map_congr_left
        intro e _
        have k : ∀ (cid2 : Nat) (v : Rat) (x : Execution),
            dedupeView (if x.id = cid2 then { x with remaining_qty := v }
              else x) = dedupeView x := by
          intro cid2 v x
          by_cases hx : x.id = cid2 <;> simp [hx, dedupeView]
        simp only [Function.comp]
        rw [k, k]

theorem matcher_mce_view (s : MatcherState) (close : Execution) :
    (matcher_match_close_execution s close).executions.map dedupeView =
      s.executions.map dedupeView := by
  unfold matcher_match_close_execution
  exact matcherLoop_view close _ s.executions s.execution_matches
    close.remaining_qty

theorem find?_rowhash_through_view {l l' : List Execution}
    (h : l.map dedupeView = l'.map dedupeView) (p : IngestPayload) :
    (l.find? (rowhashKeyMatch p)).map dedupeView =
      (l'.find? (rowhashKeyMatch p)).map dedupeView := by
  have e1 := List.find?_map (p := rowhashViewKey p) dedupeView l
  have e2 := List.find?_map (p := rowhashViewKey p) dedupeView l'
  have hc : (rowhashViewKey p) ∘ dedupeView = rowhashKeyMatch p := rfl
  rw [hc] at e1 e2
  rw [← e1, ← e2, h]

theorem filter_rowhash_length_view {l l' : List Execution}
    (h : l.map dedupeView = l'.map dedupeView) (p : IngestPayload) :
    (l.filter (rowhashKeyMatch p)).length =
      (l'.filter (rowhashKeyMatch p)).length := by
  have e1 := List.filter_map (p := rowhashViewKey p) dedupeView l
  have e2 := List.filter_map (p := rowhashViewKey p) dedupeView l'
  have hc : (rowhashViewKey p) ∘ dedupeView = rowhashKeyMatch p := rfl
  rw [hc] at e1 e2
  have l1 : (l.filter (rowhashKeyMatch p)).length =
      ((l.map dedupeView).filter (rowhashViewKey p)).length := by
    rw [e1, List.length_map]
  have l2 : (l'.filter (rowhashKeyMatch p)).length =
      ((l'.map dedupeView).filter (rowhashViewKey p)).length := by
    rw [e2, List.length_map]
  rw [l1, l2, h]

theorem insertAndMatchFresh_facts (s : MatcherState) (p : IngestPayload) :
    (insert_execution_and_match.insertAndMatchFresh s p).1.executions.map
        dedupeView =
      (s.executions ++ [execOfPayload p s.nextExecId]).map dedupeView ∧
    (insert_execution_and_match.insertAndMatchFresh s p).2 = s.nextExecId := by
  unfold insert_execution_and_match.insertAndMatchFresh
  by_cases h : (execOfPayload p s.nextExecId).side = Side.CLOSE
  · refine ⟨?_, ?_⟩
    · simp only [if_pos h]
      exact matcher_mce_view _ _
    · simp only [if_pos h]
      rfl
  · refine ⟨?_, ?_⟩
    · simp only [if_neg h]
    · simp only [if_neg h]
      rfl

/-- A rowhash dedupe hit short-circuits the gate. -/
theorem insert_dedupe_hit (s : MatcherState) (p : IngestPayload) {hh : String}
    (hrh' : p.source_rowhash = some hh) {e : Execution}
    (hfind : s.executions.find? (rowhashKeyMatch p) = some e) :
    insert_execution_and_match s p = (s, e.id) := by
  unfold insert_execution_and_match
  rw [hrh', hfind]

/-- Claim C7: ingesting a record whose dedupe key (source, filename, row
signature) already identifies an existing execution is a no-op returning
the existing id: after ingesting the same payload twice into a table with
no prior row of that key, exactly one row with the key exists, the second
call returns the first call's id, and the second call changes nothing. -/
theorem C7_duplicate_ingestion (s : MatcherState) (p : IngestPayload)
    (hrh : p.source_rowhash.isSome = true)
    (hnew : ∀ e ∈ s.executions, rowhashKeyMatch p e = false) :
    (insert_execution_and_match (insert_execution_and_match s p).1 p).1 =
      (insert_execution_and_match s p).1 ∧
    (insert_execution_and_match (insert_execution_and_match s p).1 p).2 =
      (insert_execution_and_match s p).2 ∧
    ((insert_execution_and_match s p).1.executions.filter
      (rowhashKeyMatch p)).length = 1 := by
  rcases Option.isSome_iff_exists.mp hrh with ⟨hh, hrh'⟩
  have hnone : s.executions.find? (rowhashKeyMatch p) = none :=
    List.find?_eq_none.mpr (fun e he => by rw [hnew e he]; simp)
  have hfirst : insert_execution_and_match s p =
      insert_execution_and_match.insertAndMatchFresh s p := by
    unfold insert_execution_and_match
    rw [hrh', hnone]
  have hviews : (insert_execution_and_match s p).1.executions.map dedupeView =
      (s.executions ++ [execOfPayload p s.nextExecId]).map dedupeView := by
    rw [hfirst]
    exact (insertAndMatchFresh_facts s p).1
  have hid1 : (insert_execution_and_match s p).2 = s.nextExecId := by
    rw [hfirst]
    exact (insertAndMatchFresh_facts s p).2
  have hrowkey : rowhashKeyMatch p (execOfPayload p s.nextExecId) = true := by
    simp [rowhashKeyMatch, execOfPayload]
  have hfind1 : (s.executions ++ [execOfPayload p s.nextExecId]).find?
      (rowhashKeyMatch p) = some (execOfPayload p s.nextExecId) := by
    rw [List.find?_append, hnone]
    simp [List.find?, hrowkey]
  have hfind2view : ((insert_execution_and_match s p).1.executions.find?
      (rowhashKeyMatch p)).map dedupeView =
      some (dedupeView (execOfPayload p s.nextExecId)) := by
    rw [find?_rowhash_through_view hviews p, hfind1]
    rfl
  cases hx : (insert_execution_and_match s p).1.executions.find?
      (rowhashKeyMatch p) with
  | none =>
    rw [hx] at hfind2view
    exact absurd hfind2view (by simp)
  | some efound =>
    rw [hx] at hfind2view
    have hview_eq : dedupeView efound =
        dedupeView (execOfPayload p s.nextExecId) :=
      Option.some.inj hfind2view
    have hidfound : efound.id = s.nextExecId := congrArg Prod.fst hview_eq
    have hsecond : insert_execution_and_match
        (insert_execution_and_match s p).1 p =
        ((insert_execution_and_match s p).1, efound.id) :=
      insert_dedupe_hit _ p hrh' hx
    refine ⟨by rw [hsecond], ?_, ?_⟩
    · rw [hsecond, hid1]
      exact hidfound
    · rw [filter_rowhash_length_view hviews p, List.filter_append]
      rw [List.filter_eq_nil_iff.mpr (fun e he => by rw [hnew e he]; simp)]
      simp [List.filter, hrowkey]

/-- An empty legacy-matcher session. -/
def c7State : MatcherState :=
  { executions := [], execution_matches := [], nextExecId := 1 }

/-- The idempotency payload of `tests/test_executions_matching.py`. -/
def c7Payload : IngestPayload :=
  { source := "test", source_filename := "test.csv",
    source_rowhash := some "idemp-1", source_execution_id := none,
    ticker := "ETH", direction := Direction.LONG, side := Side.OPEN,
    quantity := 2, price := some 50, fee := 0, occurred_at := 1 }

theorem C7_duplicate_ingestion_witness :
    c7Payload.source_rowhash.isSome = true ∧
    (∀ e ∈ c7State.executions, rowhashKeyMatch c7Payload e = false) ∧
    ((insert_execution_and_match (insert_execution_and_match c7State c7Payload).1 c7Payload).1 = (insert_execution_and_match c7State c7Payload).1 ∧
     (insert_execution_and_match (insert_execution_and_match c7State c7Payload).1 c7Payload).2 = (insert_execution_and_match c7State c7Payload).2 ∧
     ((insert_execution_and_match c7State c7Payload).1.executions.filter (rowhashKeyMatch c7Payload)).length = 1) :=
  ⟨rfl, fun e he => absurd he (List.not_mem_nil e),
    C7_duplicate_ingestion c7State c7Payload rfl
      (fun e he => absurd he (List.not_mem_nil e))⟩

/-- A session holding a single OPEN SHORT BTC execution. -/
def c5State : MatcherState :=
  { executions := [sampleExec 1 "BTC" Direction.SHORT Side.OPEN 1 1 1],
    execution_matches := [], nextExecId := 2 }

/-- A CLOSE LONG BTC payload ingested into that session. -/
def c5Payload : IngestPayload :=
  { source := "blofin", source_filename := "fills.csv",
    source_rowhash := some "c5-close", source_execution_id := none,
    ticker := "BTC", direction := Direction.LONG, side := Side.CLOSE,
    quantity := 1, price := some 110, fee := 0, occurred_at := 9 }

/-- Claim C5 is violated by `_match_close_execution` in
`app/services/matcher.py`: its candidate query filters only on ticker,
side and positive remainder — not on direction — so ingesting a CLOSE
LONG BTC against a ledger holding only an OPEN SHORT BTC creates a Match
pairing the two opposite-direction executions and consumes the SHORT's
inventory. -/
theorem C5_matcher_ignores_direction :
    (insert_execution_and_match c5State c5Payload).1.execution_matches.map
        (fun m => (m.open_execution_id, m.close_execution_id, m.matched_qty)) =
      [(1, 2, 1)] ∧
    c5State.executions.map (fun e => (e.id, e.direction)) =
      [(1, Direction.SHORT)] ∧
    c5Payload.direction = Direction.LONG ∧
    (insert_execution_and_match c5State c5Payload).1.executions.map
        (fun e => (e.id, e.remaining_qty)) = [(1, 0), (2, 0)] := by
  refine ⟨?_, rfl, rfl, ?_⟩ <;>
    norm_num [insert_execution_and_match,
      insert_execution_and_match.insertAndMatchFresh, c5State, c5Payload,
      sampleExec, execOfPayload, rowhashKeyMatch, List.find?,
      matcher_match_close_execution, matcherLoop, legacyCandidateFilter,
      List.insertionSort, List.orderedInsert, tsIdLe, pyOrPrice, List.filter,
      show decide ((none : Option String) = some "c5-close") = false from rfl]

/-- The matches the materializer walks for one trade, in `created_at`
order. -/
def tradeMatches (ms : List ExecutionMatch) (t : TradeRow) :
    List ExecutionMatch :=
  List.insertionSort caLe
    (ms.filter (fun m => decide (m.open_execution_id = t.id)))

/-- The running clamped remainder of the materializer's match walk
(`trade_lifecycle_materializer.py` lines 80-91), ignoring non-positive
quantities. -/
def lcRemaining : List ExecutionMatch → Rat → Rat
  | [], r => r
  | m :: ms, r =>
    if m.matched_quantity ≤ 0 then lcRemaining ms r
    else lcRemaining ms
      (if r - m.matched_quantity < 0 then 0 else r - m.matched_quantity)

/-- Sum of the positive matched quantities the walk consumes. -/
def posSum (ms : List ExecutionMatch) : Rat :=
  ((ms.filter (fun m => decide (0 < m.matched_quantity))).map
    (fun m => m.matched_quantity)).sum

theorem lcRemaining_zero (ms : List ExecutionMatch) : lcRemaining ms 0 = 0 := by
  induction ms with
  | nil => rfl
  | cons m ms ih =>
    unfold lcRemaining
    by_cases h : m.matched_quantity ≤ 0
    · simp only [if_pos h]
      exact ih
    · have : (0 : Rat) - m.matched_quantity < 0 := by
        push_neg at h
        linarith
      simp only [if_neg h, if_pos this]
      exact ih

/-- An exhausted remainder produces no further events and leaves the
trade row untouched. -/
theorem lcFold_nonpos (ms : List ExecutionMatch) (t : TradeRow) {r : Rat}
    (b : Bool) (h : r ≤ 0) : lcFold ms t r b = ([], t) := by
  induction ms generalizing r t b with
  | nil => rfl
  | cons m ms ih =>
    unfold lcFold
    by_cases h1 : m.matched_quantity ≤ 0
    · simp only [if_pos h1]
      exact ih t b h
    · push_neg at h1
      have hdrop : r - m.matched_quantity < 0 := by linarith
      have hrem : (if r - m.matched_quantity < 0 then (0 : Rat)
          else r - m.matched_quantity) = 0 := if_pos hdrop
      have hc1 : ¬(r > (if r - m.matched_quantity < 0 then (0 : Rat)
          else r - m.matched_quantity) ∧
          (if r - m.matched_quantity < 0 then (0 : Rat)
            else r - m.matched_quantity) > 0) := by
        rw [hrem]
        push_neg
        intro hgt
        exact le_refl 0
      have hc2 : ¬(r > 0 ∧ (if r - m.matched_quantity < 0 then (0 : Rat)
          else r - m.matched_quantity) = 0 ∧ b = false) := by
        push_neg
        intro hr0
        exact absurd hr0 (not_lt.mpr h)
      simp only [if_neg (not_le.mpr h1), if_neg hc1, if_neg hc2]
      rw [hrem]
      exact ih t b (le_refl 0)

theorem lcFold_regex (ms : List ExecutionMatch) (t : TradeRow) {r : Rat}
    (hr : 0 < r) :
    ∃ n, (lcFold ms t r false).1.map (fun ev => ev.event_type) =
        List.replicate n "partial_close" ∨
      (lcFold ms t r false).1.map (fun ev => ev.event_type) =
        List.replicate n "partial_close" ++ ["closed"] := by
  induction ms generalizing r t with
  | nil => exact ⟨0, Or.inl rfl⟩
  | cons m ms ih =>
    unfold lcFold
    by_cases h1 : m.matched_quantity ≤ 0
    · simp only [if_pos h1]
      exact ih t hr
    · push_neg at h1
      simp only [if_neg (not_le.mpr h1)]
      by_cases hd : r - m.matched_quantity < 0
      · rw [if_pos hd]
        have hc1 : ¬(r > (0 : Rat) ∧ (0 : Rat) > 0) :=
          fun hcon => absurd hcon.2 (lt_irrefl 0)
        have hc2 : r > 0 ∧ (0 : Rat) = 0 ∧ True := ⟨hr, rfl, trivial⟩
        rw [if_neg hc1, if_pos hc2]
        rw [lcFold_nonpos ms _ true (le_refl 0)]
        exact ⟨0, Or.inr rfl⟩
      · rw [if_neg hd]
        have hge : 0 ≤ r - m.matched_quantity := not_lt.mp hd
        rcases lt_or_eq_of_le hge with hpos | hzero
        · have hc1 : r > r - m.matched_quantity ∧ r - m.matched_quantity > 0 :=
            ⟨by linarith, hpos⟩
          rw [if_pos hc1]
          rcases ih t hpos with ⟨n, hn | hn⟩
          · refine ⟨n + 1, Or.inl ?_⟩
            rw [List.map_cons, hn, List.replicate_succ]
          · refine ⟨n + 1, Or.inr ?_⟩
            rw [List.map_cons, hn, List.replicate_succ, List.cons_append]
        · have hc1 : ¬(r > r - m.matched_quantity ∧
              r - m.matched_quantity > 0) :=
            fun hcon => absurd hcon.2 (by rw [← hzero]; exact lt_irrefl 0)
          have hc2 : r > 0 ∧ r - m.matched_quantity = 0 ∧ True :=
            ⟨hr, hzero.symm, trivial⟩
          rw [if_neg hc1, if_pos hc2]
          rw [← hzero, lcFold_nonpos ms _ true (le_refl 0)]
          exact ⟨0, Or.inr rfl⟩

theorem lcFold_closed_iff (ms : List ExecutionMatch) (t : TradeRow) (r : Rat) :
    ("closed" ∈ (lcFold ms t r false).1.map (fun ev => ev.event_type)) ↔
      (0 < r ∧ lcRemaining ms r = 0) := by
  induction ms generalizing r t with
  | nil =>
    constructor
    · intro h
      cases h
    · rintro ⟨hr, hz⟩
      have : lcRemaining [] r = r := rfl
      rw [this] at hz
      rw [hz] at hr
      exact absurd hr (lt_irrefl 0)
  | cons m ms ih =>
    rcases le_or_lt r 0 with hr | hr
    · rw [lcFold_nonpos _ _ _ hr]
      constructor
      · intro h
        cases h
      · rintro ⟨hpos, _⟩
        exact absurd hpos (not_lt.mpr hr)
    · unfold lcFold lcRemaining
      by_cases h1 : m.matched_quantity ≤ 0
      · simp only [if_pos h1]
        exact ih t r
      · push_neg at h1
        simp only [if_neg (not_le.mpr h1)]
        by_cases hd : r - m.matched_quantity < 0
        · rw [if_pos hd]
          have hc1 : ¬(r > (0 : Rat) ∧ (0 : Rat) > 0) :=
            fun hcon => absurd hcon.2 (lt_irrefl 0)
          have hc2 : r > 0 ∧ (0 : Rat) = 0 ∧ True := ⟨hr, rfl, trivial⟩
          rw [if_neg hc1, if_pos hc2]
          rw [lcFold_nonpos ms _ true (le_refl 0)]
          constructor
          · intro _
            exact ⟨hr, lcRemaining_zero ms⟩
          · intro _
            simp
        · rw [if_neg hd]
          have hge : 0 ≤ r - m.matched_quantity := not_lt.mp hd
          rcases lt_or_eq_of_le hge with hpos | hzero
          · have hc1 : r > r - m.matched_quantity ∧
                r - m.matched_quantity > 0 := ⟨by linarith, hpos⟩
            rw [if_pos hc1]
            rw [List.map_cons, List.mem_cons]
            have hiff := ih t (r - m.matched_quantity)
            constructor
            · rintro (habs | hmem)
              · exact absurd habs.symm (by simp)
              · exact ⟨hr, (hiff.mp hmem).2⟩
            · rintro ⟨_, hz⟩
              exact Or.inr (hiff.mpr ⟨hpos, hz⟩)
          · have hc1 : ¬(r > r - m.matched_quantity ∧
                r - m.matched_quantity > 0) :=
              fun hcon => absurd hcon.2 (by rw [← hzero]; exact lt_irrefl 0)
            have hc2 : r > 0 ∧ r - m.matched_quantity = 0 ∧ True :=
              ⟨hr, hzero.symm, trivial⟩
            rw [if_neg hc1, if_pos hc2]
            rw [← hzero, lcFold_nonpos ms _ true (le_refl 0)]
            constructor
            · intro _
              exact ⟨hr, lcRemaining_zero ms⟩
            · intro _
              simp
    
theorem lcFold_forces_closed (ms : List ExecutionMatch) (t : TradeRow)
    {r : Rat} (hr : 0 < r) (hsum : r ≤ posSum ms) :
    ∃ n, (lcFold ms t r false).1.map (fun ev => ev.event_type) =
      List.replicate n "partial_close" ++ ["closed"] := by
  induction ms generalizing r t with
  | nil =>
    exfalso
    have hz : posSum [] = 0 := rfl
    rw [hz] at hsum
    linarith
  | cons m ms ih =>
    unfold lcFold
    by_cases h1 : m.matched_quantity ≤ 0
    · simp only [if_pos h1]
      have hps : posSum (m :: ms) = posSum ms := by
        unfold posSum
        rw [List.filter_cons]
        simp [not_lt.mpr h1]
      exact ih t hr (hps ▸ hsum)
    · push_neg at h1
      have hps : posSum (m :: ms) = m.matched_quantity + posSum ms := by
        unfold posSum
        rw [List.filter_cons]
        simp [h1]
      simp only [if_neg (not_le.mpr h1)]
      by_cases hd : r - m.matched_quantity < 0
      · rw [if_pos hd]
        have hc1 : ¬(r > (0 : Rat) ∧ (0 : Rat) > 0) :=
          fun hcon => absurd hcon.2 (lt_irrefl 0)
        have hc2 : r > 0 ∧ (0 : Rat) = 0 ∧ True := ⟨hr, rfl, trivial⟩
        rw [if_neg hc1, if_pos hc2]
        rw [lcFold_nonpos ms _ true (le_refl 0)]
        exact ⟨0, rfl⟩
      · rw [if_neg hd]
        have hge : 0 ≤ r - m.matched_quantity := not_lt.mp hd
        rcases lt_or_eq_of_le hge with hpos | hzero
        · have hc1 : r > r - m.matched_quantity ∧ r - m.matched_quantity > 0 :=
            ⟨by linarith, hpos⟩
          rw [if_pos hc1]
          have hsum' : r - m.matched_quantity ≤ posSum ms := by
            rw [hps] at hsum
            linarith
          rcases ih t hpos hsum' with ⟨n, hn⟩
          refine ⟨n + 1, ?_⟩
          rw [List.map_cons, hn, List.replicate_succ, List.cons_append]
        · have hc1 : ¬(r > r - m.matched_quantity ∧
              r - m.matched_quantity > 0) :=
            fun hcon => absurd hcon.2 (by rw [← hzero]; exact lt_irrefl 0)
          have hc2 : r > 0 ∧ r - m.matched_quantity = 0 ∧ True :=
            ⟨hr, hzero.symm, trivial⟩
          rw [if_neg hc1, if_pos hc2]
          rw [← hzero, lcFold_nonpos ms _ true (le_refl 0)]
          exact ⟨0, rfl⟩

theorem lcFold_trade_ids (ms : List ExecutionMatch) :
    ∀ (t : TradeRow) (r : Rat) (b : Bool),
      ∀ ev ∈ (lcFold ms t r b).1, ev.trade_id = t.id := by
  induction ms with
  | nil =>
    intro t r b ev hev
    cases hev
  | cons m ms ih =>
    intro t r b ev hev
    unfold lcFold at hev
    by_cases h1 : m.matched_quantity ≤ 0
    · rw [if_pos h1] at hev
      exact ih t r b ev hev
    · push_neg at h1
      simp only [if_neg (not_le.mpr h1)] at hev
      by_cases hd : r - m.matched_quantity < 0
      · rw [if_pos hd] at hev
        have hc1 : ¬(r > (0 : Rat) ∧ (0 : Rat) > 0) :=
          fun hcon => absurd hcon.2 (lt_irrefl 0)
        rw [if_neg hc1] at hev
        by_cases hb : r > 0 ∧ (0 : Rat) = 0 ∧ b = false
        · rw [if_pos hb] at hev
          rcases List.mem_cons.mp hev with rfl | hev'
          · rfl
          · have hid := ih _ _ _ ev hev'
            rw [hid]
            by_cases he : t.end_date = none <;> simp [he]
        · rw [if_neg hb] at hev
          exact ih t _ b ev hev
      · rw [if_neg hd] at hev
        by_cases hp : r > r - m.matched_quantity ∧ r - m.matched_quantity > 0
        · rw [if_pos hp] at hev
          rcases List.mem_cons.mp hev with rfl | hev'
          · rfl
          · exact ih t _ b ev hev'
        · rw [if_neg hp] at hev
          by_cases hb : r > 0 ∧ r - m.matched_quantity = 0 ∧ b = false
          · rw [if_pos hb] at hev
            rcases List.mem_cons.mp hev with rfl | hev'
            · rfl
            · have hid := ih _ _ _ ev hev'
              rw [hid]
              by_cases he : t.end_date = none <;> simp [he]
          · rw [if_neg hb] at hev
            exact ih t _ b ev hev

theorem rows_trade_ids (t : TradeRow) (ms : List ExecutionMatch) :
    ∀ ev ∈ (trade_lifecycle_rows t ms).1, ev.trade_id = t.id := by
  intro ev hev
  unfold trade_lifecycle_rows at hev
  rcases htms : List.insertionSort caLe
      (ms.filter (fun m => decide (m.open_execution_id = t.id))) with
    _ | ⟨m0, rest⟩
  · rw [htms] at hev
    rcases hxp : t.exit_price with _ | xp
    · rw [hxp] at hev
      simp only [List.mem_singleton] at hev
      rw [hev]
    · rw [hxp] at hev
      rcases List.mem_cons.mp hev with rfl | hev'
      · rfl
      · simp only [List.mem_singleton] at hev'
        rw [hev']
  · rw [htms] at hev
    rcases List.mem_cons.mp hev with rfl | hev'
    · rfl
    · exact lcFold_trade_ids (m0 :: rest) t t.original_quantity false ev hev'

theorem rebuild_rows_foldl_fst (ms : List ExecutionMatch)
    (l : List TradeRow) :
    ∀ (a : List TradeLifecycleEvent) (b : List TradeRow),
      (l.foldl (fun acc t =>
        (acc.1 ++ (trade_lifecycle_rows t ms).1,
          acc.2 ++ [(trade_lifecycle_rows t ms).2])) (a, b)).1 =
        a ++ l.flatMap (fun t => (trade_lifecycle_rows t ms).1) := by
  induction l with
  | nil =>
    intro a b
    simp
  | cons t l ih =>
    intro a b
    rw [List.foldl_cons, List.flatMap_cons]
    rw [ih]
    rw [List.append_assoc]

theorem rebuild_rows_flatMap (trades : List TradeRow)
    (ms : List ExecutionMatch) :
    (rebuild_trade_lifecycle_events trades ms).1 =
      (List.insertionSort tradeIdLe trades).flatMap
        (fun t => (trade_lifecycle_rows t ms).1) := by
  unfold rebuild_trade_lifecycle_events
  exact rebuild_rows_foldl_fst ms _ [] []

theorem filter_trade_flatMap {l : List TradeRow} (ms : List ExecutionMatch)
    (hnd : (l.map (fun t => t.id)).Nodup) {t : TradeRow} (ht : t ∈ l) :
    ((l.flatMap (fun u => (trade_lifecycle_rows u ms).1)).filter
      (fun ev => decide (ev.trade_id = t.id))) =
      (trade_lifecycle_rows t ms).1 := by
  induction l with
  | nil => cases ht
  | cons u l ih =>
    simp only [List.map_cons, List.nodup_cons] at hnd
    rw [List.flatMap_cons, List.filter_append]
    rcases List.mem_cons.mp ht with rfl | ht'
    · have h1 : (trade_lifecycle_rows t ms).1.filter
          (fun ev => decide (ev.trade_id = t.id)) =
          (trade_lifecycle_rows t ms).1 := by
        rw [List.filter_eq_self]
        intro ev hev
        simp [rows_trade_ids t ms ev hev]
      have h2 : (l.flatMap (fun u => (trade_lifecycle_rows u ms).1)).filter
          (fun ev => decide (ev.trade_id = t.id)) = [] := by
        rw [List.filter_eq_nil_iff]
        intro ev hev
        rcases List.mem_flatMap.mp hev with ⟨u', hu', hev'⟩
        have hevid := rows_trade_ids u' ms ev hev'
        simp only [decide_eq_true_eq]
        rw [hevid]
        intro hcon
        exact hnd.1 (hcon ▸ List.mem_map_of_mem (fun t => t.id) hu')
      rw [h1, h2, List.append_nil]
    · have hne : u.id ≠ t.id := by
        intro hcon
        exact hnd.1 (hcon ▸ List.mem_map_of_mem (fun t => t.id) ht')
      have h1 : (trade_lifecycle_rows u ms).1.filter
          (fun ev => decide (ev.trade_id = t.id)) = [] := by
        rw [List.filter_eq_nil_iff]
        intro ev hev
        have hevid := rows_trade_ids u ms ev hev
        simp only [decide_eq_true_eq]
        rw [hevid]
        exact hne
      rw [h1, List.nil_append]
      exact ih hnd.2 ht'

/-- The event types the rebuild emits for a trade are exactly those of its
own block. -/
theorem eventsForTrade_eq (trades : List TradeRow) (ms : List ExecutionMatch)
    (hnd : (trades.map (fun t => t.id)).Nodup) {t : TradeRow}
    (ht : t ∈ trades) :
    eventsForTrade trades ms t.id =
      ((trade_lifecycle_rows t ms).1).map (fun ev => ev.event_type) := by
  unfold eventsForTrade
  rw [rebuild_rows_flatMap]
  have hperm := List.perm_insertionSort tradeIdLe trades
  have hnd' : ((List.insertionSort tradeIdLe trades).map
      (fun t => t.id)).Nodup :=
    ((hperm.map (fun t => t.id)).nodup_iff).mpr hnd
  have ht' : t ∈ List.insertionSort tradeIdLe trades := hperm.mem_iff.mpr ht
  rw [filter_trade_flatMap ms hnd' ht']

theorem trade_rows_eq_nil (t : TradeRow) (ms : List ExecutionMatch)
    (h : tradeMatches ms t = []) :
    trade_lifecycle_rows t ms =
      match t.exit_price with
      | some _ =>
        ([{ trade_id := t.id, event_type := "opened",
            created_at := t.created_at },
          { trade_id := t.id, event_type := "closed",
            created_at := t.created_at }],
          if t.end_date = none then { t with end_date := some t.created_at }
          else t)
      | none =>
        ([{ trade_id := t.id, event_type := "opened",
            created_at := t.created_at }], t) := by
  have h' : List.insertionSort caLe
      (ms.filter (fun m => decide (m.open_execution_id = t.id))) = [] := h
  unfold trade_lifecycle_rows
  rw [h']

theorem trade_rows_eq_cons (t : TradeRow) (ms : List ExecutionMatch)
    (m0 : ExecutionMatch) (rest : List ExecutionMatch)
    (h : tradeMatches ms t = m0 :: rest) :
    trade_lifecycle_rows t ms =
      ({ trade_id := t.id, event_type := "opened",
         created_at := t.created_at } ::
        (lcFold (m0 :: rest) t t.original_quantity false).1,
        (lcFold (m0 :: rest) t t.original_quantity false).2) := by
  have h' : List.insertionSort caLe
      (ms.filter (fun m => decide (m.open_execution_id = t.id))) =
      m0 :: rest := h
  unfold trade_lifecycle_rows
  rw [h']

/-- Per-trade lifecycle shape: the event types are `opened` followed by
some `partial_close`s, optionally ending in one `closed`; with matches,
`closed` appears iff the clamped walk drives the remainder to zero; with
no matches, `closed` appears iff the summary `exit_price` is set. -/
theorem trade_rows_shape (t : TradeRow) (ms : List ExecutionMatch) :
    (∃ n, ((trade_lifecycle_rows t ms).1).map (fun ev => ev.event_type) =
        "opened" :: List.replicate n "partial_close" ∨
      ((trade_lifecycle_rows t ms).1).map (fun ev => ev.event_type) =
        "opened" :: (List.replicate n "partial_close" ++ ["closed"])) ∧
    (tradeMatches ms t ≠ [] →
      ("closed" ∈ ((trade_lifecycle_rows t ms).1).map
          (fun ev => ev.event_type) ↔
        0 < t.original_quantity ∧
          lcRemaining (tradeMatches ms t) t.original_quantity = 0)) ∧
    (tradeMatches ms t = [] →
      ("closed" ∈ ((trade_lifecycle_rows t ms).1).map
          (fun ev => ev.event_type) ↔
        t.exit_price.isSome = true)) := by
  rcases htms : tradeMatches ms t with _ | ⟨m0, rest⟩
  · rw [trade_rows_eq_nil t ms htms]
    rcases hxp : t.exit_price with _ | xp
    · simp only [hxp]
      refine ⟨⟨0, Or.inl rfl⟩, ?_, ?_⟩
      · intro hne
        exact absurd rfl hne
      · intro _
        simp
    · simp only [hxp]
      refine ⟨⟨0, Or.inr rfl⟩, ?_, ?_⟩
      · intro hne
        exact absurd rfl hne
      · intro _
        simp
  · rw [trade_rows_eq_cons t ms m0 rest htms]
    rw [List.map_cons]
    refine ⟨?_, ?_, ?_⟩
    · rcases le_or_lt t.original_quantity 0 with hle | hpos
      · rw [lcFold_nonpos (m0 :: rest) t false hle]
        exact ⟨0, Or.inl rfl⟩
      · rcases lcFold_regex (m0 :: rest) t hpos with ⟨n, hn | hn⟩
        · exact ⟨n, Or.inl (by rw [hn])⟩
        · exact ⟨n, Or.inr (by rw [hn])⟩
    · intro _
      constructor
      · intro hmem
        rcases List.mem_cons.mp hmem with hop | hmem'
        · exact absurd hop.symm (show ("opened" : String) ≠ "closed" by decide)
        · exact (lcFold_closed_iff (m0 :: rest) t t.original_quantity).mp hmem'
      · intro hcond
        exact List.mem_cons_of_mem _
          ((lcFold_closed_iff (m0 :: rest) t t.original_quantity).mpr hcond)
    · intro hnil
      cases hnil

/-- C3: for every trade (under distinct trade ids, as the primary key
guarantees) the rebuilt lifecycle event sequence is `opened` followed by
zero or more `partial_close` and at most one final `closed`; with matches
present, `closed` appears exactly when the walk first drives the remaining
quantity to zero, and with no matches exactly when the summary
`exit_price` is set. -/
theorem C3_lifecycle_regex (trades : List TradeRow) (ms : List ExecutionMatch)
    (hnd : (trades.map (fun t => t.id)).Nodup) :
    ∀ t ∈ trades,
      (∃ n, eventsForTrade trades ms t.id =
          "opened" :: List.replicate n "partial_close" ∨
        eventsForTrade trades ms t.id =
          "opened" :: (List.replicate n "partial_close" ++ ["closed"])) ∧
      (tradeMatches ms t ≠ [] →
        ("closed" ∈ eventsForTrade trades ms t.id ↔
          0 < t.original_quantity ∧
            lcRemaining (tradeMatches ms t) t.original_quantity = 0)) ∧
      (tradeMatches ms t = [] →
        ("closed" ∈ eventsForTrade trades ms t.id ↔
          t.exit_price.isSome = true)) := by
  intro t ht
  rw [eventsForTrade_eq trades ms hnd ht]
  exact trade_rows_shape t ms

def c3T1 : TradeRow :=
  { id := 1, original_quantity := 1, exit_price := none, end_date := none,
    created_at := 0 }

def c3T2 : TradeRow :=
  { id := 2, original_quantity := 1, exit_price := some 5, end_date := none,
    created_at := 0 }

def c3Trades : List TradeRow := [c3T1, c3T2]

def c3Ms : List ExecutionMatch :=
  [{ id := 1, open_execution_id := 1, close_execution_id := 3,
     matched_quantity := 1 / 2, created_at := 10 }]

theorem C3_lifecycle_regex_witness :
    ((c3Trades.map (fun t => t.id)).Nodup) ∧
    (∃ n, eventsForTrade c3Trades c3Ms c3T1.id =
        "opened" :: List.replicate n "partial_close" ∨
      eventsForTrade c3Trades c3Ms c3T1.id =
        "opened" :: (List.replicate n "partial_close" ++ ["closed"])) :=
  ⟨by decide,
    (C3_lifecycle_regex c3Trades c3Ms (by decide) c3T1
      (List.mem_cons_self _ _)).1⟩

def c6Trade : TradeRow :=
  { id := 1, original_quantity := 1, exit_price := none, end_date := none,
    created_at := 0 }

def c6Ms : List ExecutionMatch :=
  [{ id := 1, open_execution_id := 1, close_execution_id := 2,
     matched_quantity := 2, created_at := 5 }]

/-- A match of quantity 2 against a trade of original quantity 1 drives the
remainder below zero, yet the rebuild completes: it clamps at zero, emits
`opened` then `closed`, and hands back both rows (and the end-dated trade)
for the unconditional commit — no abort, no error. -/
theorem C6_overshoot_counterexample :
    (rebuild_trade_lifecycle_events [c6Trade] c6Ms).1.map
        (fun ev => ev.event_type) = ["opened", "closed"] ∧
    (rebuild_trade_lifecycle_events [c6Trade] c6Ms).1.length = 2 ∧
    (rebuild_trade_lifecycle_events [c6Trade] c6Ms).2 =
      [{ c6Trade with end_date := some 5 }] := by
  refine ⟨?_, ?_, ?_⟩ <;>
    norm_num [rebuild_trade_lifecycle_events, trade_lifecycle_rows, lcFold,
      List.insertionSort, List.orderedInsert, tradeIdLe, caLe, c6Trade, c6Ms]

/-- C6 as amended: an overshooting match history is not fatal — whenever the
positive matched quantities reach the trade's (positive) original quantity,
the rebuild still returns a complete `opened … closed` sequence for that
trade, clamping the remainder at zero and committing all derived rows. -/
theorem C6_overshoot_amended (trades : List TradeRow)
    (ms : List ExecutionMatch)
    (hnd : (trades.map (fun t => t.id)).Nodup) (t : TradeRow)
    (ht : t ∈ trades) (hpos : 0 < t.original_quantity)
    (hover : t.original_quantity ≤ posSum (tradeMatches ms t)) :
    ∃ n, eventsForTrade trades ms t.id =
      "opened" :: (List.replicate n "partial_close" ++ ["closed"]) := by
  rw [eventsForTrade_eq trades ms hnd ht]
  rcases htms : tradeMatches ms t with _ | ⟨m0, rest⟩
  · rw [htms] at hover
    have hz : posSum [] = 0 := rfl
    rw [hz] at hover
    exact absurd (lt_of_lt_of_le hpos hover) (lt_irrefl 0)
  · rw [trade_rows_eq_cons t ms m0 rest htms, List.map_cons]
    rw [htms] at hover
    rcases lcFold_forces_closed (m0 :: rest) t hpos hover with ⟨n, hn⟩
    exact ⟨n, by rw [hn]⟩

theorem C6_overshoot_amended_witness :
    (([c6Trade].map (fun t => t.id)).Nodup) ∧
    0 < c6Trade.original_quantity ∧
    c6Trade.original_quantity ≤ posSum (tradeMatches c6Ms c6Trade) ∧
    ∃ n, eventsForTrade [c6Trade] c6Ms c6Trade.id =
      "opened" :: (List.replicate n "partial_close" ++ ["closed"]) := by
  refine ⟨by decide, by norm_num [c6Trade], ?_, ?_⟩
  · norm_num [c6Trade, c6Ms, posSum, tradeMatches, List.insertionSort,
      List.orderedInsert, caLe]
  · exact C6_overshoot_amended [c6Trade] c6Ms (by decide) c6Trade
      (List.mem_cons_self _ _) (by norm_num [c6Trade])
      (by norm_num [c6Trade, c6Ms, posSum, tradeMatches, List.insertionSort,
        List.orderedInsert, caLe])

def pbInit : PBAcc :=
  { opened_qty := 0, closed_qty := 0, cost_basis := 0, realized_pnl := 0,
    closed_at := none }

/-- The snapshot-assembly tail of `build_position_snapshot`
(`position_builder.py` lines 84-117), split out for reasoning. -/
def pbFinish (t0 : PBTrade) (cp : Option Rat) (acc : PBAcc) :
    PositionSnapshot :=
  let remaining_qty := acc.opened_qty - acc.closed_qty
  let avg_entry_price :=
    if 0 < acc.opened_qty then some (acc.cost_basis / acc.opened_qty)
    else none
  let unrealized_pnl :=
    match cp, avg_entry_price with
    | some c, some avg =>
      if 0 < remaining_qty then some (remaining_qty * (c - avg)) else none
    | _, _ => none
  { account_id := t0.account_id, symbol := t0.ticker, side := t0.direction,
    opened_qty := acc.opened_qty, closed_qty := acc.closed_qty,
    remaining_qty := remaining_qty, avg_entry_price := avg_entry_price,
    realized_pnl := acc.realized_pnl, unrealized_pnl := unrealized_pnl,
    opened_at := t0.entry_date, closed_at := acc.closed_at }

theorem build_eq_cons (trades : List PBTrade) (cp : Option Rat)
    (t0 : PBTrade) (rest : List PBTrade)
    (hs : List.insertionSort entryDateLe trades = t0 :: rest) :
    build_position_snapshot trades cp =
      (t0 :: rest).foldlM pbStep pbInit >>= fun acc =>
        Except.ok (pbFinish t0 cp acc) := by
  unfold build_position_snapshot
  rw [hs]
  exact rfl

theorem pbStep_ok (acc : PBAcc) (t : PBTrade)
    (h : t.is_open = false → t.exit_price.isSome = true) :
    ∃ acc', pbStep acc t = Except.ok acc' := by
  simp only [pbStep]
  by_cases ho : t.is_open = true
  · rw [if_pos ho]
    exact ⟨_, rfl⟩
  · rw [if_neg ho]
    have hx := h (Bool.not_eq_true t.is_open ▸ ho)
    by_cases hc : min t.quantity (acc.opened_qty - acc.closed_qty) ≤ 0
    · rw [if_pos hc]
      exact ⟨acc, rfl⟩
    · rw [if_neg hc]
      rcases Option.isSome_iff_exists.mp hx with ⟨xp, hxp⟩
      rw [hxp]
      exact ⟨_, rfl⟩

theorem foldlM_pbStep_ok (l : List PBTrade)
    (h : ∀ t ∈ l, t.is_open = false → t.exit_price.isSome = true) :
    ∀ acc : PBAcc, ∃ acc', l.foldlM pbStep acc = Except.ok acc' := by
  induction l with
  | nil =>
    intro acc
    exact ⟨acc, rfl⟩
  | cons t l ih =>
    intro acc
    rcases pbStep_ok acc t (h t (List.mem_cons_self _ _)) with ⟨acc1, h1⟩
    rcases ih (fun u hu => h u (List.mem_cons_of_mem _ hu)) acc1 with
      ⟨acc2, h2⟩
    refine ⟨acc2, ?_⟩
    rw [List.foldlM_cons, h1]
    exact h2

def c9Open : PBTrade :=
  { account_id := 1, ticker := "BTC", direction := Direction.LONG,
    quantity := 1, entry_price := 100, exit_price := none, is_open := true,
    entry_date := 1, end_date := none }

def c9Close : PBTrade :=
  { account_id := 1, ticker := "BTC", direction := Direction.LONG,
    quantity := 1, entry_price := 100, exit_price := none, is_open := false,
    entry_date := 2, end_date := some 3 }

/-- `build_position_snapshot` is not total: the empty collection raises
`ValueError("No trades provided")` instead of returning zero aggregates,
and a consuming close whose `exit_price` is NULL hits
`Decimal(str(None))`, raising `InvalidOperation`. -/
theorem C9_projector_totality :
    build_position_snapshot [] none =
      Except.error "No trades provided" ∧
    build_position_snapshot [c9Open, c9Close] none =
      Except.error "InvalidOperation" := by
  constructor
  · rfl
  · have hs : List.insertionSort entryDateLe [c9Open, c9Close] =
        c9Open :: [c9Close] := by
      norm_num [List.insertionSort, List.orderedInsert, entryDateLe,
        c9Open, c9Close]
    rw [build_eq_cons [c9Open, c9Close] none c9Open [c9Close] hs]
    have h1 : pbStep pbInit c9Open = Except.ok
        { opened_qty := 1, closed_qty := 0, cost_basis := 100,
          realized_pnl := 0, closed_at := none } := by
      norm_num [pbStep, pbInit, c9Open, PBAcc.mk.injEq]
    have h2 : pbStep
        { opened_qty := 1, closed_qty := 0, cost_basis := 100,
          realized_pnl := 0, closed_at := none } c9Close =
        Except.error "InvalidOperation" := by
      norm_num [pbStep, c9Close]
    rw [List.foldlM_cons, h1]
    show (Except.ok _ >>= _) = _
    rw [show ∀ (a : PBAcc) (f : PBAcc → Except String PBAcc),
        (Except.ok a >>= f) = f a from fun a f => rfl]
    rw [List.foldlM_cons, h2]
    rfl

/-- C9 as amended: the projector performs no writes, and it returns a
snapshot (raising nothing) whenever the collection is nonempty and every
consuming row carries an `exit_price`; the empty collection and a NULL
`exit_price` on a consuming close are the two failure modes. -/
theorem C9_projector_totality_amended (trades : List PBTrade)
    (cp : Option Rat) (hne : trades ≠ [])
    (hx : ∀ t ∈ trades, t.is_open = false → t.exit_price.isSome = true) :
    ∃ snap, build_position_snapshot trades cp = Except.ok snap := by
  rcases hs : List.insertionSort entryDateLe trades with _ | ⟨t0, rest⟩
  · exfalso
    have hp := List.perm_insertionSort entryDateLe trades
    rw [hs] at hp
    exact hne hp.symm.eq_nil
  · have hall : ∀ t ∈ t0 :: rest, t.is_open = false →
        t.exit_price.isSome = true := by
      rw [← hs]
      intro t ht
      exact hx t ((List.perm_insertionSort entryDateLe trades).mem_iff.mp ht)
    rcases foldlM_pbStep_ok (t0 :: rest) hall pbInit with ⟨acc, hacc⟩
    refine ⟨pbFinish t0 cp acc, ?_⟩
    rw [build_eq_cons trades cp t0 rest hs, hacc]
    exact rfl

theorem C9_projector_totality_amended_witness :
    ([c9Open] ≠ ([] : List PBTrade)) ∧
    (∀ t ∈ [c9Open], t.is_open = false → t.exit_price.isSome = true) ∧
    ∃ snap, build_position_snapshot [c9Open] none = Except.ok snap :=
  ⟨by decide, by decide,
    C9_projector_totality_amended [c9Open] none (by decide) (by decide)⟩

def c10State : LedgerState :=
  { executions :=
      [sampleExec 1 "BTC" Direction.LONG Side.OPEN 1 1 1,
       sampleExec 2 "BTC" Direction.LONG Side.CLOSE 1 1 2],
    execution_matches :=
      [{ id := 9, open_execution_id := 7, close_execution_id := 8,
         matched_quantity := 5, created_at := 9 }],
    nextExecId := 3, nextMatchId := 1 }

def c10Variant : LedgerState :=
  { executions :=
      [sampleExec 1 "BTC" Direction.LONG Side.OPEN 1 0 1,
       sampleExec 2 "BTC" Direction.LONG Side.CLOSE 1 0 2],
    execution_matches := [], nextExecId := 3, nextMatchId := 1 }

/-- C10: the rebuild writes only the derived match table.  Every execution
row (and the execution id counter) survives unchanged, the stale match set
being replaced has no influence on the result, and the output depends on
the executions only through the columns the rebuild reads (id, ticker,
direction, side, quantity, timestamp) — in particular `remaining_qty`,
`price` and `fee` are neither read nor written, consumption being tracked
in the local per-run queue alone. -/
theorem C10_rebuild_frame (s : LedgerState) :
    (rebuild_execution_matches s).1.executions = s.executions ∧
    (rebuild_execution_matches s).1.nextExecId = s.nextExecId ∧
    (∀ ms : List ExecutionMatch,
      rebuild_execution_matches { s with execution_matches := ms } =
        rebuild_execution_matches s) ∧
    (∀ s' : LedgerState,
      s'.executions.map rebuildView = s.executions.map rebuildView →
      s'.nextMatchId = s.nextMatchId →
      (rebuild_execution_matches s').1.execution_matches =
        (rebuild_execution_matches s).1.execution_matches ∧
      (rebuild_execution_matches s').2 = (rebuild_execution_matches s).2) := by
  refine ⟨rfl, rfl, fun ms => rfl, fun s' hv hn => ?_⟩
  unfold rebuild_execution_matches
  rw [hv, hn]
  exact ⟨rfl, rfl⟩

theorem C10_rebuild_frame_witness :
    ((rebuild_execution_matches c10State).1.executions =
      c10State.executions) ∧
    (c10Variant.executions.map rebuildView =
      c10State.executions.map rebuildView) ∧
    (c10Variant.nextMatchId = c10State.nextMatchId) ∧
    ((rebuild_execution_matches c10Variant).1.execution_matches =
      (rebuild_execution_matches c10State).1.execution_matches) := by
  refine ⟨(C10_rebuild_frame c10State).1, by decide, by decide, ?_⟩
  exact ((C10_rebuild_frame c10State).2.2.2 c10Variant (by decide)
    (by decide)).1
